import Mathlib

/-!
Verification of the ingredient-matching engine of the recipe-backend repository.

The development shallowly embeds the TypeScript sources:
  * `src/normalizers/ingredient-normalizer.ts` (name normalization),
  * `src/matchers/scoring.ts` (signal scoring, score combination, thresholds,
    ranking via `rankFoodCandidates`),
  * `src/matchers/match-gotchas.ts` (the veto table `checkProblematicMatch`),
  * `src/services/recipe-intake-service.ts` (`hasPerfectTokenMatch`,
    `isValidMatch`, `checkGotchaAndTryNext`, `categorizeMatch`, and the
    per-ingredient body of `mapParsedToMatched`).

Modelling conventions:
  * JavaScript strings are `List Char` (`JStr`); regex-based transformations
    are implemented as direct scanners with JS regex semantics (leftmost match,
    global replace scanning the original string, `\b` word boundaries).
  * JavaScript numbers are exact rationals `ℚ`.  Every score the engine
    produces is an integer and the only non-integer factor is `0.2`, whose
    binary floating-point error (≈1e-17 per product) can never move a value
    across a `Math.round` boundary, because exact combined scores always have
    fractional part in {0, .2, .4, .6, .8}; so the rational model coincides
    with the float computation on all reachable values.
  * `Math.round` is `⌊x + 1/2⌋` (JS rounds half-way cases toward +∞).
  * The embedding capability (vector lookup plus `cosineSimilarity`) is
    abstracted as an injected oracle `sim : FoodLookupItem → Option ℚ`
    returning the finite cosine similarity when both vectors are available
    (`none` covers a missing vector and a non-finite similarity, which the
    source discards with the same effect).  All theorems quantify over the
    oracle, hence hold for whatever the concrete float computation returns.
  * JS `Array.prototype.sort` with comparator `(a, b) => b.key - a.key` is,
    per the ECMAScript specification, a stable sort; with this comparator the
    result is the unique stable descending reordering, implemented here as a
    stable insertion sort `sortDescBy`.
  * JS `Set` (insertion ordered, used for `has`/`size`/iteration) is a
    first-occurrence-deduplicated list.
-/

-- Batteries marks the `Rat` field operations `@[irreducible]`, which blocks
-- `decide`/`rfl` evaluation of concrete rational arithmetic; restore the
-- default reducibility so concrete instances of the engine can be evaluated.
set_option allowUnsafeReducibility true in
attribute [semireducible] Rat.add Rat.mul Rat.div Rat.sub Rat.neg Rat.inv

/-- JavaScript string, modelled as a list of characters. -/
abbrev JStr := List Char

/-- JS `\w` word character: `[A-Za-z0-9_]`. -/
def isWordChar (c : Char) : Bool :=
  ('a' ≤ c && c ≤ 'z') || ('A' ≤ c && c ≤ 'Z') || ('0' ≤ c && c ≤ '9') || c = '_'

/-- JS `\s` whitespace (ASCII portion; inputs are ASCII recipe text). -/
def isSpaceChar (c : Char) : Bool :=
  c = ' ' || c = '\t' || c = '\n' || c = '\r' || c = '\x0b' || c = '\x0c'

/-- ASCII `String.prototype.toLowerCase` on one character, written as the
explicit A–Z table (identity on every other character). -/
def toLowerChar (c : Char) : Char :=
  if c = 'A' then 'a' else if c = 'B' then 'b' else if c = 'C' then 'c'
  else if c = 'D' then 'd' else if c = 'E' then 'e' else if c = 'F' then 'f'
  else if c = 'G' then 'g' else if c = 'H' then 'h' else if c = 'I' then 'i'
  else if c = 'J' then 'j' else if c = 'K' then 'k' else if c = 'L' then 'l'
  else if c = 'M' then 'm' else if c = 'N' then 'n' else if c = 'O' then 'o'
  else if c = 'P' then 'p' else if c = 'Q' then 'q' else if c = 'R' then 'r'
  else if c = 'S' then 's' else if c = 'T' then 't' else if c = 'U' then 'u'
  else if c = 'V' then 'v' else if c = 'W' then 'w' else if c = 'X' then 'x'
  else if c = 'Y' then 'y' else if c = 'Z' then 'z' else c

/-- The ASCII uppercase letters (domain of the `toLowerChar` table). -/
def UPPER_LETTERS : JStr :=
  ['A', 'B', 'C', 'D', 'E', 'F', 'G', 'H', 'I', 'J', 'K', 'L', 'M',
   'N', 'O', 'P', 'Q', 'R', 'S', 'T', 'U', 'V', 'W', 'X', 'Y', 'Z']

/-- The ASCII lowercase letters (range of the `toLowerChar` table). -/
def LOWER_LETTERS : JStr :=
  ['a', 'b', 'c', 'd', 'e', 'f', 'g', 'h', 'i', 'j', 'k', 'l', 'm',
   'n', 'o', 'p', 'q', 'r', 's', 't', 'u', 'v', 'w', 'x', 'y', 'z']

/-- `String.prototype.toLowerCase`, character-wise. -/
def toLowerStr (s : JStr) : JStr := s.map toLowerChar

/-- `String.prototype.trim`. -/
def trimWs (s : JStr) : JStr :=
  ((s.dropWhile (fun c => isSpaceChar c)).reverse.dropWhile
    (fun c => isSpaceChar c)).reverse

/-- One collapse pass of `value.replace(/\s+/g, " ")`: the flag records
whether the previous character was whitespace (already emitted as `' '`). -/
def collapseWsGo : Bool → JStr → JStr
  | _, [] => []
  | prevSp, c :: rest =>
    if isSpaceChar c then
      if prevSp then collapseWsGo true rest else ' ' :: collapseWsGo true rest
    else c :: collapseWsGo false rest

/-- `normalizeWhitespace` from `ingredient-normalizer.ts`:
`value.replace(/\s+/g, " ").trim()`. -/
def normalizeWhitespace (s : JStr) : JStr :=
  trimWs (collapseWsGo false s)

/-- `singularizeToken` from `ingredient-normalizer.ts`. -/
def singularizeToken (token : JStr) : JStr :=
  let lower := toLowerStr token
  if lower.length ≤ 3 then lower
  else if ("ies".toList).isSuffixOf lower then lower.dropLast.dropLast.dropLast ++ ['y']
  else if ("ves".toList).isSuffixOf lower then lower.dropLast.dropLast.dropLast ++ ['f']
  else if ("es".toList).isSuffixOf lower &&
      !(("ses".toList).isSuffixOf lower) && !(("xes".toList).isSuffixOf lower) then
    lower.dropLast.dropLast
  else if ("s".toList).isSuffixOf lower && !(("ss".toList).isSuffixOf lower) then
    lower.dropLast
  else lower

/-- The configured descriptor phrases (`DESCRIPTORS` in `const.ts`). -/
def DESCRIPTORS : List JStr :=
  ["chopped".toList, "finely chopped".toList, "thinly sliced".toList,
   "sliced".toList, "diced".toList, "minced".toList, "peeled".toList,
   "seeded".toList, "softened".toList, "melted".toList, "divided".toList,
   "to taste".toList, "at room temperature".toList, "freshly ground".toList]

/-- Case-insensitive match of the (lowercase) pattern `p` against a prefix of
`s`, per the regex `i` flag. -/
def ciPrefix : JStr → JStr → Bool
  | [], _ => true
  | _ :: _, [] => false
  | d :: ds, c :: cs => toLowerChar c = d && ciPrefix ds cs

/-- Word-ness of the first character of a string (`false` at end of input),
used for the right-hand side of a `\b` word boundary. -/
def headIsWord : JStr → Bool
  | [] => false
  | c :: _ => isWordChar c

/-- Scanner for `working.replace(new RegExp("\\b" + d + "\\b", "gi"), " ")`,
also counting the matches (the source pushes the descriptor once per `exec`
hit).  `prevW` is the word-ness of the character to the left of the scan
position (JS `replace` with `/g` finds all non-overlapping matches in the
original string), `skip` counts matched characters still to be swallowed. -/
def rpGo (p : JStr) : Nat → Bool → JStr → JStr × Nat
  | _, _, [] => ([], 0)
  | skip + 1, _, c :: rest => rpGo p skip (isWordChar c) rest
  | 0, prevW, c :: rest =>
    if (prevW ≠ isWordChar c) && ciPrefix p (c :: rest) &&
        (isWordChar (p.getLastD '?') ≠ headIsWord ((c :: rest).drop p.length)) then
      let r := rpGo p (p.length - 1) (isWordChar c) rest
      (' ' :: r.1, r.2 + 1)
    else
      let r := rpGo p 0 (isWordChar c) rest
      (c :: r.1, r.2)

/-- Replace every whole-word, case-insensitive occurrence of descriptor `p`
with a single space, returning the new string and the number of matches. -/
def replaceDescriptor (p : JStr) (s : JStr) : JStr × Nat :=
  rpGo p 0 false s

/-- `removeDescriptorPhrases` from `ingredient-normalizer.ts`: fold over the
configured descriptors in order, recording each match and blanking it out. -/
def removeDescriptorPhrases (acc : JStr × List JStr) : JStr × List JStr :=
  DESCRIPTORS.foldl
    (fun wd d =>
      let r := replaceDescriptor d wd.1
      (r.1, wd.2 ++ List.replicate r.2 d))
    acc

/-- Scanner for `input.replace(/\(([^)]+)\)/g, ...)` collecting each
whitespace-normalized non-empty parenthetical group as a descriptor. `skip`
counts characters of a recognized group still to be swallowed. -/
def spGo : Nat → JStr → JStr × List JStr
  | _, [] => ([], [])
  | skip + 1, _ :: rest => spGo skip rest
  | 0, c :: rest =>
    if c = '(' then
      let content := rest.takeWhile (fun d => d ≠ ')')
      if content.length ≠ 0 ∧ rest.drop content.length ≠ [] then
        -- a `)` follows a non-empty group: the regex matches
        let r := spGo (content.length + 1) rest
        let d := normalizeWhitespace content
        (' ' :: r.1, if d = [] then r.2 else d :: r.2)
      else
        let r := spGo 0 rest
        (c :: r.1, r.2)
    else
      let r := spGo 0 rest
      (c :: r.1, r.2)

/-- `removeParentheticalDescriptors` from `ingredient-normalizer.ts`. -/
def removeParentheticalDescriptors (input : JStr) : JStr × List JStr :=
  spGo 0 input

/-- A character kept by `NON_ALPHANUMERIC_REGEX = /[^a-z0-9\s-]/gi`
(everything else is replaced by a space). -/
def isSanitizedKeep (c : Char) : Bool :=
  ('a' ≤ c && c ≤ 'z') || ('A' ≤ c && c ≤ 'Z') || ('0' ≤ c && c ≤ '9') ||
    isSpaceChar c || c = '-'

/-- `sanitizeWorkingValue` from `ingredient-normalizer.ts`. -/
def sanitizeWorkingValue (value : JStr) : JStr :=
  normalizeWhitespace (value.map (fun c => if isSanitizedKeep c then c else ' '))

/-- JS `value.split(sep)` for a one-character separator (keeps empty pieces). -/
def splitChar (sep : Char) (s : JStr) : List JStr :=
  splitGo [] s
where
  splitGo (cur : JStr) : JStr → List JStr
    | [] => [cur.reverse]
    | c :: rest => if c = sep then cur.reverse :: splitGo [] rest
                   else splitGo (c :: cur) rest

/-- `new Set(list)` / `Array.from(new Set(list))`: first-occurrence
deduplication in insertion order. -/
def dedupFirst (l : List JStr) : List JStr :=
  go [] l
where
  go (seen : List JStr) : List JStr → List JStr
    | [] => []
    | x :: xs => if x ∈ seen then go seen xs else x :: go (x :: seen) xs

/-- `buildTokens` from `ingredient-normalizer.ts`. -/
def buildTokens (value : JStr) : List JStr :=
  if value = [] then []
  else
    dedupFirst (((splitChar ' ' value).map singularizeToken).filter
      (fun t => t.length ≠ 0))

/-- Output record of the normalizer. -/
structure NormalizedIngredientName where
  baseName : JStr
  descriptors : List JStr
  tokens : List JStr
  deriving DecidableEq, Repr

/-- `normalizeIngredientName` from `ingredient-normalizer.ts`. -/
def normalizeIngredientName (input : JStr) : NormalizedIngredientName :=
  let initial := removeParentheticalDescriptors input
  let wd := removeDescriptorPhrases initial
  let sanitized := sanitizeWorkingValue wd.1
  let tokens := buildTokens sanitized
  let baseName :=
    if (List.intercalate [' '] tokens) = [] then
      normalizeWhitespace (if sanitized = [] then input else sanitized)
    else List.intercalate [' '] tokens
  ⟨baseName, wd.2, tokens⟩

/-! ## Scoring (`src/matchers/scoring.ts`) -/

/-- JS `Math.round`: nearest integer, half-way cases toward `+∞`, i.e.
`⌊q + 1/2⌋` (written with the executable `Rat.floor`). -/
def jsRound (q : ℚ) : ℤ := (q + 1/2).floor

theorem jsRound_eq_floor (q : ℚ) : jsRound q = ⌊q + 1/2⌋ := by
  rw [jsRound, Rat.floor_def', ← Rat.floor_def]

/-- `CatalogEntry` / `FoodLookupItem` from `types.ts`. -/
structure FoodLookupItem where
  id : JStr
  name : JStr
  details : Option JStr := none
  aliases : Option (List JStr) := none
  deriving DecidableEq, Repr

/-- `IndexedFood` from `types.ts` (sets as insertion-ordered dedup lists). -/
structure IndexedFood extends FoodLookupItem where
  normalizedName : JStr
  tokenSet : List JStr
  aliasSet : List JStr
  aliasTokenSets : List (List JStr)
  deriving DecidableEq, Repr

/-- The inspected fields of a `MatchReason`'s free-form `meta` record. -/
structure MatchMeta where
  coverage : Option ℚ := none
  perfectMatch : Option Bool := none
  similarity : Option ℚ := none
  deriving DecidableEq, Repr

/-- `MatchReasonType` from `types.ts`. -/
inductive MatchReasonType where
  | exactName | aliasExact | prefixMatch | tokenOverlap
  | aliasTokenOverlap | fuzzySimilarity | embeddingSimilarity
  deriving DecidableEq, Repr

/-- `MatchReason` from `types.ts`. -/
structure MatchReason where
  rtype : MatchReasonType
  score : ℚ
  meta : Option MatchMeta := none
  deriving DecidableEq, Repr

/-- `FoodMatchCandidate` from `types.ts`. -/
structure FoodMatchCandidate where
  food : FoodLookupItem
  confidence : ℤ
  reasons : List MatchReason
  deriving DecidableEq, Repr

/-- `ParsedIngredient` from `types.ts`. -/
structure ParsedIngredient where
  raw : JStr := []
  qty : Option ℚ := none
  unit : Option JStr := none
  name : JStr
  descriptors : Option (List JStr) := none
  normalizedTokens : Option (List JStr) := none
  deriving DecidableEq, Repr

/-- `normalizeForComparison` from `scoring.ts`. -/
def normalizeForComparison (value : JStr) : JStr :=
  toLowerStr (normalizeIngredientName value).baseName

/-- Inner loop of the `levenshteinDistance` dynamic program: compute the
current row past column 0, walking `b` and the previous row together while
carrying `previousRow[j-1]` and `currentRow[j-1]`. -/
def levRowGo (ca : Char) : List Char → List Nat → Nat → Nat → List Nat
  | [], _, _, _ => []
  | _ :: _, [], _, _ => []
  | cb :: bs, p :: ps, pPrev, cPrev =>
    let c := min (min (cPrev + 1) (p + 1)) (pPrev + (if ca = cb then 0 else 1))
    c :: levRowGo ca bs ps p c

/-- Outer loop of the dynamic program (`i` is the 1-based row index). -/
def levFold (b : List Char) : List Char → Nat → List Nat → List Nat
  | [], _, row => row
  | ca :: as, i, row =>
    match row with
    | [] => []
    | p0 :: ps => levFold b as (i + 1) (i :: levRowGo ca b ps p0 i)

/-- `levenshteinDistance` from `scoring.ts` (row-based dynamic program;
the result is `previousRow[b.length]`, the last entry of the final row). -/
def levenshteinDistance (a b : JStr) : Nat :=
  (levFold b a 1 (List.range (b.length + 1))).getLastD 0

/-- `computeLevenshteinSimilarity` from `scoring.ts`. -/
def computeLevenshteinSimilarity (a b : JStr) : Option ℚ :=
  if a = [] ∨ b = [] then none
  else if a = b then some 1
  else
    let distance := levenshteinDistance a b
    let maxLength := max a.length b.length
    if maxLength = 0 then none
    else some (1 - (distance : ℚ) / (maxLength : ℚ))

/-- `computeTokenOverlapScore` from `scoring.ts`. -/
def computeTokenOverlapScore (ingredientTokens : List JStr)
    (candidateTokens : List JStr) : Option MatchReason :=
  if ingredientTokens.length = 0 ∨ candidateTokens.length = 0 then none
  else
    let matched := ingredientTokens.filter (fun t => candidateTokens.contains t)
    if matched.length = 0 then none
    else
      let coverageCandidate : ℚ := (matched.length : ℚ) / (candidateTokens.length : ℚ)
      let coverageIngredient : ℚ := (matched.length : ℚ) / (ingredientTokens.length : ℚ)
      let coverage := max coverageCandidate coverageIngredient
      if 4/5 ≤ coverage then
        some ⟨.tokenOverlap, 80, some { coverage := some coverage }⟩
      else if 3/5 ≤ coverage then
        some ⟨.tokenOverlap, 70, some { coverage := some coverage }⟩
      else if 2/5 ≤ coverage then
        some ⟨.tokenOverlap, 60, some { coverage := some coverage }⟩
      else none

/-- `computeAliasTokenOverlap` from `scoring.ts`. -/
def computeAliasTokenOverlap (ingredientTokens : List JStr)
    (aliasTokenSets : List (List JStr)) : Option MatchReason :=
  if ingredientTokens.length = 0 ∨ aliasTokenSets.length = 0 then none
  else go aliasTokenSets
where
  go : List (List JStr) → Option MatchReason
    | [] => none
    | ts :: rest =>
      if ts.length = 0 then go rest
      else
        let matched := (fun l => l.filter (fun t => ts.contains t)) ingredientTokens
        let coverage : ℚ := (matched.length : ℚ) / (ts.length : ℚ)
        if 4/5 ≤ coverage then
          some ⟨.aliasTokenOverlap, 70, some { coverage := some coverage }⟩
        else go rest

/-- Stable insertion of `a` into `l` before the first element whose key is
`≤ key a` (elements with strictly larger key stay in front). -/
def orderedInsertDesc {α β : Type} [LinearOrder β] (key : α → β) (a : α) :
    List α → List α
  | [] => [a]
  | b :: l => if key b ≤ key a then a :: b :: l else b :: orderedInsertDesc key a l

/-- Stable descending sort by `key`: the model of JS
`array.sort((a, b) => key(b) - key(a))` (ECMAScript sort is stable, and with
this consistent comparator the stable descending reordering is unique). -/
def sortDescBy {α β : Type} [LinearOrder β] (key : α → β) : List α → List α
  | [] => []
  | b :: l => orderedInsertDesc key b (sortDescBy key l)

/-- `combineScores` from `scoring.ts`: sort the scores descending, keep the
top score whole, weight every remaining score by `0.2`, cap at 100 after
`Math.round`. -/
def combineScores (reasons : List MatchReason) : ℤ :=
  if reasons.length = 0 then 0
  else
    let sorted := sortDescBy id (reasons.map (fun r => r.score))
    let combined : ℚ :=
      match sorted with
      | [] => 0
      | top :: rest => top + rest.sum * (1/5)
    min 100 (jsRound combined)

/-- `computeEmbeddingReason` from `scoring.ts`.  The argument stands for the
whole optional-embedding pipeline (`options.ingredientEmbedding`,
`options.candidateEmbedding`, `cosineSimilarity`): `some s` is a finite
similarity computed from two available vectors, `none` covers a missing
vector and a non-finite similarity (both make the source bail out). -/
def computeEmbeddingReason (simOpt : Option ℚ) : Option MatchReason :=
  match simOpt with
  | none => none
  | some similarity =>
    if similarity < 3/5 then none
    else some ⟨.embeddingSimilarity, ((jsRound (similarity * 100) : ℤ) : ℚ),
      some { similarity := some similarity }⟩

/-- `checkPerfectTokenMatch` from `scoring.ts`. -/
def checkPerfectTokenMatch (ingredientTokens : List JStr)
    (candidateTokenSet : List JStr) : Bool :=
  let ingredientTokenSet := dedupFirst ingredientTokens
  ingredientTokens.all (fun t => candidateTokenSet.contains t) &&
    (candidateTokenSet.length ≠ 0 &&
      candidateTokenSet.all (fun t => ingredientTokenSet.contains t))

/-- `shouldApplyPrefixMatch` from `scoring.ts`. -/
def shouldApplyPrefixMatch (tokenOverlap : Option MatchReason)
    (ingredientNameNormalized candidateNormalizedName : JStr) : Bool :=
  match tokenOverlap with
  | none => false
  | some r =>
    match r.meta with
    | none => false
    | some m =>
      match m.coverage with
      | none => false
      | some coverage =>
        if coverage < 3/5 then false
        else ingredientNameNormalized.isPrefixOf candidateNormalizedName ||
          candidateNormalizedName.isPrefixOf ingredientNameNormalized

/-- `handleTokenOverlap` from `scoring.ts`: push the token-overlap reason and,
on a perfect token match below 100, the boosted `perfectMatch` reason. -/
def handleTokenOverlap (reasons : List MatchReason)
    (tokenOverlap : Option MatchReason) (perfectTokenMatch : Bool) :
    List MatchReason :=
  match tokenOverlap with
  | none => reasons
  | some r =>
    let rs := reasons ++ [r]
    if perfectTokenMatch && r.score < 100 then
      rs ++ [⟨.tokenOverlap, 100,
        some { perfectMatch := some true, coverage := r.meta.bind (fun m => m.coverage) }⟩]
    else rs

/-- The reasons accumulated by `scoreCandidate` from `scoring.ts` (the
`reasons` array right before the final length/confidence checks). -/
def scoreReasons (ingredient : ParsedIngredient) (candidate : IndexedFood)
    (simOpt : Option ℚ) : List MatchReason :=
  let ingredientNameNormalized := normalizeForComparison ingredient.name
  let ingredientTokens :=
    ingredient.normalizedTokens.getD (normalizeIngredientName ingredient.name).tokens
  let tokenOverlap := computeTokenOverlapScore ingredientTokens candidate.tokenSet
  let perfectTokenMatch := checkPerfectTokenMatch ingredientTokens candidate.tokenSet
  -- Each `addReason`/`push` appends an entry that does not read the
  -- accumulated array, so the array is the concatenation of the segments,
  -- in source push order.
  (if candidate.normalizedName = ingredientNameNormalized then
    [⟨.exactName, 100, none⟩] else []) ++
  (if candidate.aliasSet.contains ingredientNameNormalized then
    [⟨.aliasExact, 95, none⟩] else []) ++
  (if shouldApplyPrefixMatch tokenOverlap ingredientNameNormalized
      candidate.normalizedName then
    [⟨.prefixMatch, 85, none⟩] else []) ++
  handleTokenOverlap [] tokenOverlap perfectTokenMatch ++
  (match computeAliasTokenOverlap ingredientTokens candidate.aliasTokenSets with
   | some a => [a]
   | none => []) ++
  (match computeLevenshteinSimilarity ingredientNameNormalized
      candidate.normalizedName with
   | some fuzzySimilarity =>
     if 3/5 ≤ fuzzySimilarity then
       [⟨.fuzzySimilarity, ((jsRound (fuzzySimilarity * 70) : ℤ) : ℚ),
         some { similarity := some fuzzySimilarity }⟩]
     else []
   | none => []) ++
  (match computeEmbeddingReason simOpt with
   | some e => [e]
   | none => [])

/-- `scoreCandidate` from `scoring.ts`: bail out on an empty normalized
ingredient name, accumulate the signal reasons (`scoreReasons`), drop the
candidate when no signal fired or the combined confidence is not positive,
and strip the index-only fields from the returned food record. -/
def scoreCandidate (ingredient : ParsedIngredient) (candidate : IndexedFood)
    (simOpt : Option ℚ) : Option FoodMatchCandidate :=
  if normalizeForComparison ingredient.name = [] then none
  else
    let reasons := scoreReasons ingredient candidate simOpt
    if reasons.length = 0 then none
    else
      let confidence := combineScores reasons
      if confidence ≤ 0 then none
      else some ⟨⟨candidate.id, candidate.name, none, candidate.aliases⟩,
        confidence, reasons⟩

/-- One entry of `buildIndex` from `food-matcher.ts`. -/
def buildIndexEntry (food : FoodLookupItem) : IndexedFood :=
  let normalizedNameData := normalizeIngredientName food.name
  let baseName :=
    if normalizedNameData.baseName = [] then trimWs (toLowerStr food.name)
    else normalizedNameData.baseName
  let tokenSet :=
    dedupFirst (if normalizedNameData.tokens.length > 0 then normalizedNameData.tokens
      else (splitChar ' ' baseName).filter (fun t => t.length > 0))
  let aliasBaseNames :=
    (((food.aliases.getD []).map (fun a => (normalizeIngredientName a).baseName)).filter
      (fun b => b ≠ []))
  let aliasTokenSets :=
    ((((food.aliases.getD []).map (fun a => (normalizeIngredientName a).tokens)).filter
      (fun t => t ≠ [])).map dedupFirst)
  { toFoodLookupItem := food, normalizedName := baseName, tokenSet := tokenSet,
    aliasSet := dedupFirst aliasBaseNames, aliasTokenSets := aliasTokenSets }

/-- `buildIndex` from `food-matcher.ts`. -/
def buildIndex (foods : List FoodLookupItem) : List IndexedFood :=
  foods.map buildIndexEntry

/-- `rankFoodCandidates` from `food-matcher.ts`.  `sim` is the injected
embedding-similarity oracle (see `computeEmbeddingReason`); the source's
per-candidate cache lookups are deterministic in the food record, so the
loop over the index followed by the null-filter is a `filterMap`. -/
def rankFoodCandidates (ingredient : ParsedIngredient)
    (foods : List FoodLookupItem) (sim : FoodLookupItem → Option ℚ) :
    List FoodMatchCandidate :=
  if foods.length = 0 then []
  else
    let scored := foods.filterMap
      (fun f => scoreCandidate ingredient (buildIndexEntry f) (sim f))
    sortDescBy (fun c => c.confidence) scored

/-- `matchIngredientToFood` from `food-matcher.ts`. -/
def matchIngredientToFood (ingredient : ParsedIngredient)
    (foods : List FoodLookupItem) (sim : FoodLookupItem → Option ℚ) :
    Option FoodMatchCandidate :=
  (rankFoodCandidates ingredient foods sim).head?

/-! ## Thresholds (`scoring.ts` top of file) -/

/-- `DEFAULT_HARD_MATCH_THRESHOLD` from `scoring.ts`. -/
def DEFAULT_HARD_MATCH_THRESHOLD : ℤ := 90

/-- `DEFAULT_SOFT_MATCH_THRESHOLD` from `scoring.ts`. -/
def DEFAULT_SOFT_MATCH_THRESHOLD : ℤ := 70

/-- `parseThreshold` from `scoring.ts`.  The environment value is modelled by
its parse outcome: `none` = variable unset or empty (falsy), `some none` =
`Number.parseFloat` returned a non-finite value, `some (some q)` = a finite
parse `q` (the string-to-float lexer itself is external library behavior). -/
def parseThreshold (value : Option (Option ℚ)) (fallback : ℤ) : ℤ :=
  match value with
  | none => fallback
  | some none => fallback
  | some (some parsed) => max 0 (min 100 (jsRound parsed))

/-- `HARD_MATCH_THRESHOLD` as a function of `process.env.MATCH_HARD_THRESHOLD`. -/
def HARD_MATCH_THRESHOLD (env : Option (Option ℚ)) : ℤ :=
  parseThreshold env DEFAULT_HARD_MATCH_THRESHOLD

/-- `SOFT_MATCH_THRESHOLD` as a function of `process.env.MATCH_SOFT_THRESHOLD`. -/
def SOFT_MATCH_THRESHOLD (env : Option (Option ℚ)) : ℤ :=
  parseThreshold env DEFAULT_SOFT_MATCH_THRESHOLD

/-! ## Veto engine (`src/matchers/match-gotchas.ts`) -/

/-- JS `hay.includes(needle)` (substring test). -/
def hasSub (needle : JStr) : JStr → Bool
  | [] => needle.isEmpty
  | c :: rest => needle.isPrefixOf (c :: rest) || hasSub needle rest

/-- `name.split(/\s+/).filter(Boolean)`. -/
def jsWords (s : JStr) : List JStr :=
  wordsGo [] s
where
  wordsGo (cur : JStr) : JStr → List JStr
    | [] => if cur = [] then [] else [cur.reverse]
    | c :: rest =>
      if isSpaceChar c then
        if cur = [] then wordsGo [] rest else cur.reverse :: wordsGo [] rest
      else wordsGo (c :: cur) rest

/-- `value.toLowerCase().trim()`. -/
def jsLowerTrim (s : JStr) : JStr := trimWs (toLowerStr s)

/-- One entry of `PROBLEMATIC_SINGLE_WORD_PATTERNS` in `match-gotchas.ts`. -/
structure GotchaPattern where
  ingredient : JStr
  excludes : List JStr
  reason : JStr
  deriving DecidableEq, Repr

/-- One entry of `SEMANTIC_MISMATCHES` in `match-gotchas.ts`. -/
structure SemanticPattern where
  ingredient : List JStr
  excludes : List JStr
  reason : JStr
  deriving DecidableEq, Repr

/-- `PROBLEMATIC_SINGLE_WORD_PATTERNS` from `match-gotchas.ts`. -/
def PROBLEMATIC_SINGLE_WORD_PATTERNS : List GotchaPattern :=
  [⟨"salt".toList, ["butter".toList, "pepper".toList],
    "Salt is a modifier in compound foods, not the food itself".toList⟩,
   ⟨"pepper".toList,
    ["bell".toList, "red".toList, "green".toList, "yellow".toList,
     "orange".toList, "black".toList, "white".toList],
    "Pepper alone refers to spice, not bell peppers".toList⟩,
   ⟨"stock".toList,
    ["ground".toList, "beef".toList, "chicken".toList, "pork".toList,
     "vegetable".toList],
    "Stock refers to broth, not ground meat stock".toList⟩,
   ⟨"leaf".toList, ["lettuce".toList, "cabbage".toList, "spinach".toList],
    "Leaf is a descriptor, not a food name".toList⟩,
   ⟨"ground".toList,
    ["beef".toList, "turkey".toList, "chicken".toList, "pork".toList],
    "Ground is a preparation method, not a food".toList⟩,
   ⟨"butter".toList, ["peanut".toList, "almond".toList, "cashew".toList],
    "Butter alone refers to dairy butter, not nut butters".toList⟩]

/-- `SEMANTIC_MISMATCHES` from `match-gotchas.ts`. -/
def SEMANTIC_MISMATCHES : List SemanticPattern :=
  [⟨["beef".toList, "stock".toList],
    ["ground".toList, "steak".toList, "roast".toList],
    "Beef stock is broth, not ground beef".toList⟩,
   ⟨["bay".toList, "leaf".toList], ["lettuce".toList],
    "Bay leaf is a spice, not lettuce".toList⟩,
   ⟨["thyme".toList, "leaf".toList], ["lettuce".toList],
    "Thyme leaf is an herb, not lettuce".toList⟩,
   ⟨["chicken".toList, "stock".toList],
    ["breast".toList, "thigh".toList, "wing".toList],
    "Chicken stock is broth, not chicken parts".toList⟩]

/-- The structured verdict returned by `checkProblematicMatch`. -/
structure GotchaVerdict where
  isProblematic : Bool
  reason : Option JStr := none
  pattern : Option JStr := none
  deriving DecidableEq, Repr

/-- `checkProblematicMatch` from `match-gotchas.ts`. -/
def checkProblematicMatch (ingredient : ParsedIngredient)
    (candidate : FoodMatchCandidate) : GotchaVerdict :=
  let ingredientName := jsLowerTrim ingredient.name
  let candidateName := jsLowerTrim candidate.food.name
  let ingredientWords := jsWords ingredientName
  let singleHit : Option GotchaPattern :=
    if ingredientWords.length = 1 then
      let singleWord := ingredientWords.headD []
      PROBLEMATIC_SINGLE_WORD_PATTERNS.find?
        (fun p => singleWord = p.ingredient &&
          p.excludes.any (fun e => hasSub e candidateName))
    else none
  match singleHit with
  | some p =>
    ⟨true, some p.reason, some (p.ingredient ++ " -> ".toList ++ candidateName)⟩
  | none =>
    match SEMANTIC_MISMATCHES.find?
        (fun m => m.ingredient.all (fun w => hasSub w ingredientName) &&
          m.excludes.any (fun e => hasSub e candidateName)) with
    | some m =>
      ⟨true, some m.reason, some (ingredientName ++ " -> ".toList ++ candidateName)⟩
    | none => ⟨false, none, none⟩

/-! ## Orchestration (`src/services/recipe-intake-service.ts`) -/

/-- `MAX_CANDIDATES` from `recipe-intake-service.ts`. -/
def MAX_CANDIDATES : Nat := 5

/-- `hasPerfectTokenMatch` from `recipe-intake-service.ts`. -/
def hasPerfectTokenMatch (candidate : FoodMatchCandidate) : Bool :=
  candidate.reasons.any (fun r =>
    r.rtype = MatchReasonType.tokenOverlap &&
      (match r.meta with
       | some m => m.perfectMatch = some true
       | none => false))

/-- The service-local single-word table inside
`hasProblematicSingleWordMatch` (distinct from the gotcha module's table). -/
def SERVICE_SINGLE_WORD_PATTERNS : List (JStr × List JStr) :=
  [("pepper".toList,
    ["bell".toList, "red".toList, "green".toList, "yellow".toList, "orange".toList]),
   ("salt".toList, ["butter".toList, "pepper".toList]),
   ("stock".toList,
    ["ground".toList, "beef".toList, "chicken".toList, "pork".toList]),
   ("leaf".toList, ["lettuce".toList, "cabbage".toList])]

/-- `hasProblematicSingleWordMatch` from `recipe-intake-service.ts`. -/
def hasProblematicSingleWordMatch (singleWord candidateName : JStr) : Bool :=
  SERVICE_SINGLE_WORD_PATTERNS.any
    (fun p => singleWord = p.1 && p.2.any (fun e => hasSub e candidateName))

/-- The service-local semantic-mismatch table inside `hasSemanticMismatch`. -/
def SERVICE_SEMANTIC_MISMATCHES : List (List JStr × List JStr) :=
  [(["beef".toList, "stock".toList],
    ["ground".toList, "steak".toList, "roast".toList]),
   (["bay".toList, "leaf".toList], ["lettuce".toList]),
   (["thyme".toList, "leaf".toList], ["lettuce".toList])]

/-- `hasSemanticMismatch` from `recipe-intake-service.ts`. -/
def hasSemanticMismatch (ingredientName candidateName : JStr) : Bool :=
  SERVICE_SEMANTIC_MISMATCHES.any
    (fun m => m.1.all (fun w => hasSub w ingredientName) &&
      m.2.any (fun e => hasSub e candidateName))

/-- `isValidMatch` from `recipe-intake-service.ts`. -/
def isValidMatch (ingredient : ParsedIngredient)
    (candidate : FoodMatchCandidate) : Bool :=
  let ingredientName := jsLowerTrim ingredient.name
  let candidateName := jsLowerTrim candidate.food.name
  let ingredientWords := jsWords ingredientName
  let candidateWords := jsWords candidateName
  let firstReject : Bool :=
    if ingredientWords.length = 1 ∧ candidateWords.length > 1 ∧
        candidate.confidence < 90 then
      let singleWord := ingredientWords.headD []
      hasSub singleWord candidateName &&
        hasProblematicSingleWordMatch singleWord candidateName
    else false
  let secondReject : Bool :=
    if ingredientWords.length > 1 ∧
        candidateWords.length > ingredientWords.length ∧
        candidate.confidence < 85 then
      ingredientWords.all (fun w => hasSub w candidateName) &&
        hasSemanticMismatch ingredientName candidateName
    else false
  !(firstReject || secondReject)

/-- `checkGotchaAndTryNext` from `recipe-intake-service.ts`: accept the top
candidate unless flagged; on a flag, fall back exactly one position. -/
def checkGotchaAndTryNext (ranked : List FoodMatchCandidate)
    (ingredient : ParsedIngredient) : Option FoodMatchCandidate :=
  match ranked with
  | [] => none
  | best :: rest =>
    if (checkProblematicMatch ingredient best).isProblematic then
      match rest with
      | [] => none
      | nextBest :: _ =>
        if !(checkProblematicMatch ingredient nextBest).isProblematic then
          some nextBest
        else none
    else some best

/-- The record returned by `categorizeMatch`. -/
structure CategorizedMatch where
  autoMatch : Option FoodMatchCandidate
  probableMatch : Option FoodMatchCandidate
  best : Option FoodMatchCandidate
  deriving DecidableEq, Repr

/-- One unfolding of `categorizeMatch` from `recipe-intake-service.ts` on a
non-empty ranked list `top :: rest`: gotcha check, validity check and
threshold bucketing; `recResult` stands for the recursive call on
`[nextBest, ...ranked.slice(2)]`, which is exactly the tail `rest`. -/
def categorizeStep (hard soft : ℤ) (top : FoodMatchCandidate)
    (rest : List FoodMatchCandidate) (ingredient : ParsedIngredient)
    (recResult : CategorizedMatch) : CategorizedMatch :=
  match checkGotchaAndTryNext (top :: rest) ingredient with
  | none => ⟨none, none, some top⟩
  | some validCandidate =>
    if isValidMatch ingredient validCandidate then
      if hard ≤ validCandidate.confidence ∨
          (85 ≤ validCandidate.confidence ∧ hasPerfectTokenMatch validCandidate) then
        ⟨some validCandidate, none, some validCandidate⟩
      else if soft ≤ validCandidate.confidence then
        ⟨none, some validCandidate, some validCandidate⟩
      else ⟨none, none, some validCandidate⟩
    else
      match rest with
      | [] => ⟨none, none, some top⟩
      | nextBest :: _ =>
        if isValidMatch ingredient nextBest then recResult
        else ⟨none, none, some top⟩

/-- `categorizeMatch` from `recipe-intake-service.ts` (the thresholds
`HARD_MATCH_THRESHOLD` / `SOFT_MATCH_THRESHOLD`, fixed at module load from
the environment, are passed as parameters `hard` / `soft`).  The source's
recursive call on `[nextBest, ...ranked.slice(2)]` is the structural call on
the tail, supplied to `categorizeStep` (computing it eagerly is equivalent:
the function is pure). -/
def categorizeMatch (hard soft : ℤ) :
    List FoodMatchCandidate → ParsedIngredient → CategorizedMatch
  | [], _ => ⟨none, none, none⟩
  | top :: rest, ingredient =>
    categorizeStep hard soft top rest ingredient
      (categorizeMatch hard soft rest ingredient)

/-- The matching-related fields of the `MatchedIngredient` record built by the
loop body of `mapParsedToMatched` (`foodId`, `match`, `candidates`) together
with the review-queue suggestion (`best`).  The purely cosmetic
`foodName`/`foodDetails` fields (name formatting) are outside the claims and
not modelled. -/
structure MatchedIngredientParts where
  foodId : Option JStr
  chosenMatch : Option FoodMatchCandidate
  candidates : List FoodMatchCandidate
  bestSuggestion : Option FoodMatchCandidate
  deriving DecidableEq, Repr

/-- Per-ingredient body of `mapParsedToMatched` from
`recipe-intake-service.ts`: rank, truncate to `MAX_CANDIDATES`, categorize,
choose `autoMatch ?? probableMatch ?? best ?? null`. -/
def matchOneIngredient (hard soft : ℤ) (sim : FoodLookupItem → Option ℚ)
    (lookup : List FoodLookupItem) (ingredient : ParsedIngredient) :
    MatchedIngredientParts :=
  let ranked :=
    if lookup.length ≠ 0 then
      (rankFoodCandidates ingredient lookup sim).take MAX_CANDIDATES
    else []
  let r := categorizeMatch hard soft ranked ingredient
  let chosenMatch :=
    (r.autoMatch.orElse (fun _ => r.probableMatch)).orElse (fun _ => r.best)
  { foodId := r.autoMatch.map (fun c => c.food.id),
    chosenMatch := chosenMatch,
    candidates := ranked,
    bestSuggestion := r.best }

/-! ## Lemmas about the stable descending sort -/

theorem orderedInsertDesc_perm {α β : Type} [LinearOrder β] (key : α → β)
    (a : α) (l : List α) :
    List.Perm (orderedInsertDesc key a l) (a :: l) := by
  induction l with
  | nil => simp [orderedInsertDesc]
  | cons b l ih =>
    by_cases h : key b ≤ key a
    · simp [orderedInsertDesc, h]
    · simp only [orderedInsertDesc, if_neg h]
      exact (ih.cons b).trans (List.Perm.swap a b l)

theorem sortDescBy_perm {α β : Type} [LinearOrder β] (key : α → β)
    (l : List α) : List.Perm (sortDescBy key l) l := by
  induction l with
  | nil => simp [sortDescBy]
  | cons b l ih =>
    exact (orderedInsertDesc_perm key b (sortDescBy key l)).trans (ih.cons b)

theorem mem_sortDescBy {α β : Type} [LinearOrder β] (key : α → β)
    (l : List α) (x : α) : x ∈ sortDescBy key l ↔ x ∈ l :=
  (sortDescBy_perm key l).mem_iff

theorem orderedInsertDesc_pairwise {α β : Type} [LinearOrder β] (key : α → β)
    (a : α) (l : List α) (h : l.Pairwise (fun x y => key y ≤ key x)) :
    (orderedInsertDesc key a l).Pairwise (fun x y => key y ≤ key x) := by
  induction l with
  | nil => simp [orderedInsertDesc]
  | cons b l ih =>
    rcases List.pairwise_cons.mp h with ⟨hb, hl⟩
    by_cases hba : key b ≤ key a
    · simp only [orderedInsertDesc, if_pos hba]
      refine List.pairwise_cons.mpr ⟨?_, h⟩
      intro y hy
      rcases List.mem_cons.mp hy with rfl | hy
      · exact hba
      · exact le_trans (hb y hy) hba
    · simp only [orderedInsertDesc, if_neg hba]
      refine List.pairwise_cons.mpr ⟨?_, ih hl⟩
      intro y hy
      rcases List.mem_cons.mp ((orderedInsertDesc_perm key a l).mem_iff.mp hy) with
        rfl | hy
      · exact le_of_lt (lt_of_not_le hba)
      · exact hb y hy

theorem sortDescBy_pairwise {α β : Type} [LinearOrder β] (key : α → β)
    (l : List α) :
    (sortDescBy key l).Pairwise (fun x y => key y ≤ key x) := by
  induction l with
  | nil => simp [sortDescBy]
  | cons b l ih => exact orderedInsertDesc_pairwise key b _ ih

theorem orderedInsertDesc_filter {α β : Type} [LinearOrder β] (key : α → β)
    (a : α) (l : List α) (k : β) :
    (orderedInsertDesc key a l).filter (fun x => decide (key x = k)) =
      if key a = k then a :: l.filter (fun x => decide (key x = k))
      else l.filter (fun x => decide (key x = k)) := by
  induction l with
  | nil =>
    by_cases h : key a = k <;> simp [orderedInsertDesc, List.filter, h]
  | cons b l ih =>
    by_cases hba : key b ≤ key a
    · simp only [orderedInsertDesc, if_pos hba]
      by_cases h : key a = k <;> by_cases hbk : key b = k <;>
        simp [List.filter, h, hbk]
    · have hab : key a < key b := lt_of_not_le hba
      simp only [orderedInsertDesc, if_neg hba]
      by_cases h : key a = k
      · have hbk : ¬ (key b = k) := by
          intro hk; rw [h] at hab; rw [hk] at hab; exact lt_irrefl k hab
        simp [List.filter, hbk, ih, h]
      · by_cases hbk : key b = k <;> simp [List.filter, hbk, ih, h]

theorem sortDescBy_filter {α β : Type} [LinearOrder β] (key : α → β)
    (l : List α) (k : β) :
    (sortDescBy key l).filter (fun x => decide (key x = k)) =
      l.filter (fun x => decide (key x = k)) := by
  induction l with
  | nil => simp [sortDescBy]
  | cons b l ih =>
    rw [sortDescBy, orderedInsertDesc_filter]
    by_cases h : key b = k <;> simp [List.filter, h, ih]

theorem sortDescBy_head_ge {α β : Type} [LinearOrder β] (key : α → β)
    (l : List α) (x y : α) (hx : x ∈ l)
    (hy : (sortDescBy key l).head? = some y) : key x ≤ key y := by
  have hmem : x ∈ sortDescBy key l := (mem_sortDescBy key l x).mpr hx
  rcases hs : sortDescBy key l with _ | ⟨h0, t⟩
  · rw [hs] at hmem; simp at hmem
  · rw [hs] at hy
    simp only [List.head?] at hy
    injection hy with hy
    subst hy
    rw [hs] at hmem
    rcases List.mem_cons.mp hmem with rfl | hmem
    · exact le_refl _
    · have hp := sortDescBy_pairwise key l
      rw [hs] at hp
      exact (List.pairwise_cons.mp hp).1 x hmem

/-! ## Lemmas about `jsRound` and `combineScores` -/

theorem jsRound_mono {q r : ℚ} (h : q ≤ r) : jsRound q ≤ jsRound r := by
  rw [jsRound_eq_floor, jsRound_eq_floor]
  exact Int.floor_le_floor (by linarith)

theorem jsRound_intCast (n : ℤ) : jsRound (n : ℚ) = n := by
  rw [jsRound_eq_floor, add_comm, Int.floor_add_int]
  norm_num

theorem jsRound_ge_of_le {n : ℤ} {q : ℚ} (h : (n : ℚ) ≤ q) : n ≤ jsRound q := by
  calc n = jsRound (n : ℚ) := (jsRound_intCast n).symm
    _ ≤ jsRound q := jsRound_mono h

theorem combineScores_le_100 (reasons : List MatchReason) :
    combineScores reasons ≤ 100 := by
  rw [combineScores]
  split
  · norm_num
  · exact min_le_left _ _

theorem combineScores_eq_100 (reasons : List MatchReason) (r : MatchReason)
    (hmem : r ∈ reasons) (hr : (100 : ℚ) ≤ r.score)
    (hpos : ∀ s ∈ reasons, (0 : ℚ) ≤ s.score) :
    combineScores reasons = 100 := by
  have hne : reasons.length ≠ 0 := by
    intro h
    rw [List.length_eq_zero] at h
    subst h
    simp at hmem
  rw [combineScores, if_neg hne]
  have hscore : r.score ∈ reasons.map (fun r => r.score) :=
    List.mem_map.mpr ⟨r, hmem, rfl⟩
  have hsorted : r.score ∈ sortDescBy id (reasons.map (fun r => r.score)) :=
    (mem_sortDescBy id _ _).mpr hscore
  rcases hs : sortDescBy id (reasons.map (fun r => r.score)) with _ | ⟨top, rest⟩
  · rw [hs] at hsorted; simp at hsorted
  · have hpos' : ∀ q ∈ sortDescBy id (reasons.map (fun r => r.score)), (0 : ℚ) ≤ q := by
      intro q hq
      rcases List.mem_map.mp ((mem_sortDescBy id _ _).mp hq) with ⟨s, hsmem, rfl⟩
      exact hpos s hsmem
    have htop : (100 : ℚ) ≤ top := by
      rw [hs] at hsorted
      rcases List.mem_cons.mp hsorted with heq | hmem'
      · rw [← heq]; exact hr
      · have hp := sortDescBy_pairwise id (reasons.map (fun r => r.score))
        rw [hs] at hp
        exact le_trans hr ((List.pairwise_cons.mp hp).1 _ hmem')
    have hrest : (0 : ℚ) ≤ rest.sum := by
      apply List.sum_nonneg
      intro q hq
      apply hpos'
      rw [hs]
      exact List.mem_cons_of_mem _ hq
    have hcomb : (100 : ℚ) ≤ top + rest.sum * (1/5) := by nlinarith
    have h100 : (100 : ℤ) ≤ jsRound (top + rest.sum * (1/5)) := by
      apply jsRound_ge_of_le
      push_cast
      exact hcomb
    simp only [hs]
    omega

theorem jsRound_min_100 (c : ℚ) :
    min (100 : ℤ) (jsRound c) = jsRound (min (100 : ℚ) c) := by
  have h100 : jsRound ((100 : ℚ)) = (100 : ℤ) := by
    have := jsRound_intCast 100
    push_cast at this
    exact this
  by_cases h : c ≤ 100
  · rw [min_eq_right h]
    apply min_eq_right
    calc jsRound c ≤ jsRound (100 : ℚ) := jsRound_mono h
      _ = 100 := h100
  · have h' : (100 : ℚ) ≤ c := le_of_not_le h
    rw [min_eq_left h']
    rw [h100]
    apply min_eq_left
    rw [← h100]
    exact jsRound_mono h'

/-- **Modelled from the spec's words (§4.4)** for comparison with the source's
`combineScores`: sort the scores descending, combine the top score with the
remaining scores weighted by 0.2, clamp to [0, 100], round to an integer. -/
def specCombineScores (reasons : List MatchReason) : ℤ :=
  if reasons = [] then 0
  else
    let sorted := sortDescBy id (reasons.map (fun r => r.score))
    let combined : ℚ :=
      match sorted with
      | [] => 0
      | top :: rest => top + rest.sum * (1/5)
    jsRound (min (100 : ℚ) (max (0 : ℚ) combined))

/-- **C4.** For every reason list whose scores are non-negative (true of every
reason the engine emits), `combineScores` equals the spec's formula: sort
descending, top score plus 0.2 times each remaining score, clamped to
[0, 100] and rounded; the empty list gives 0. -/
theorem C4_combineScores_spec (reasons : List MatchReason)
    (h : ∀ r ∈ reasons, (0 : ℚ) ≤ r.score) :
    combineScores reasons = specCombineScores reasons ∧ combineScores [] = 0 := by
  constructor
  case right => rfl
  rw [combineScores, specCombineScores]
  by_cases hne : reasons = []
  · subst hne; simp
  · have hlen : reasons.length ≠ 0 := by
      intro h0; exact hne (List.length_eq_zero.mp h0)
    rw [if_neg hlen, if_neg hne]
    rcases hs : sortDescBy id (reasons.map (fun r => r.score)) with _ | ⟨top, rest⟩
    · exfalso
      have hperm := sortDescBy_perm id (reasons.map (fun r => r.score))
      rw [hs] at hperm
      have hlen2 : reasons.length = 0 := by simpa using hperm.length_eq.symm
      exact hlen hlen2
    · have hnn : ∀ q ∈ sortDescBy id (reasons.map (fun r => r.score)), (0 : ℚ) ≤ q := by
        intro q hq
        rcases List.mem_map.mp ((mem_sortDescBy id _ _).mp hq) with ⟨s, hsmem, rfl⟩
        exact h s hsmem
      have htop : (0 : ℚ) ≤ top := hnn top (by rw [hs]; exact List.mem_cons_self _ _)
      have hrest : (0 : ℚ) ≤ rest.sum := by
        apply List.sum_nonneg
        intro q hq
        exact hnn q (by rw [hs]; exact List.mem_cons_of_mem _ hq)
      have hcomb : (0 : ℚ) ≤ top + rest.sum * (1/5) := by nlinarith
      simp only [hs]
      rw [max_eq_right hcomb]
      exact jsRound_min_100 _

/-- **C4 witness**: the theorem applied at a concrete reason list. -/
theorem C4_combineScores_spec_witness :
    (∀ r ∈ [(⟨MatchReasonType.exactName, 100, none⟩ : MatchReason),
      ⟨MatchReasonType.tokenOverlap, 80, none⟩], (0 : ℚ) ≤ r.score) ∧
    (combineScores [(⟨MatchReasonType.exactName, 100, none⟩ : MatchReason),
        ⟨MatchReasonType.tokenOverlap, 80, none⟩] =
      specCombineScores [(⟨MatchReasonType.exactName, 100, none⟩ : MatchReason),
        ⟨MatchReasonType.tokenOverlap, 80, none⟩] ∧
      combineScores [] = 0) :=
  ⟨by decide, C4_combineScores_spec _ (by decide)⟩

/-- **C6 (amended).** Each threshold is the rounded value of its environment
variable clamped to [0, 100]; a missing or non-finite value falls back to the
defaults, which are 90 (hard) and 70 (soft) — not 85/60 as the claim states. -/
theorem C6_thresholds (q : ℚ) (v : Option (Option ℚ)) :
    HARD_MATCH_THRESHOLD (some (some q)) = max 0 (min 100 (jsRound q)) ∧
    SOFT_MATCH_THRESHOLD (some (some q)) = max 0 (min 100 (jsRound q)) ∧
    HARD_MATCH_THRESHOLD none = 90 ∧
    HARD_MATCH_THRESHOLD (some none) = 90 ∧
    SOFT_MATCH_THRESHOLD none = 70 ∧
    SOFT_MATCH_THRESHOLD (some none) = 70 ∧
    0 ≤ HARD_MATCH_THRESHOLD v ∧ HARD_MATCH_THRESHOLD v ≤ 100 ∧
    0 ≤ SOFT_MATCH_THRESHOLD v ∧ SOFT_MATCH_THRESHOLD v ≤ 100 := by
  have hb : ∀ (w : Option (Option ℚ)) (fb : ℤ), 0 ≤ fb → fb ≤ 100 →
      0 ≤ parseThreshold w fb ∧ parseThreshold w fb ≤ 100 := by
    intro w fb h0 h1
    rcases w with _ | _ | q'
    · exact ⟨h0, h1⟩
    · exact ⟨h0, h1⟩
    · exact ⟨le_max_left _ _, max_le (by norm_num) (min_le_left _ _)⟩
  refine ⟨rfl, rfl, rfl, rfl, rfl, rfl, ?_, ?_, ?_, ?_⟩
  · exact (hb v 90 (by norm_num) (by norm_num)).1
  · exact (hb v 90 (by norm_num) (by norm_num)).2
  · exact (hb v 70 (by norm_num) (by norm_num)).1
  · exact (hb v 70 (by norm_num) (by norm_num)).2

/-- **C6 counterexample**: with the variables unset, the fallbacks are 90 and
70, not 85 and 60 as the claim asserts. -/
theorem C6_thresholds_counterexample :
    HARD_MATCH_THRESHOLD none = 90 ∧ SOFT_MATCH_THRESHOLD none = 70 ∧
    HARD_MATCH_THRESHOLD none ≠ 85 ∧ SOFT_MATCH_THRESHOLD none ≠ 60 := by
  refine ⟨rfl, rfl, ?_, ?_⟩ <;> decide

/-! ## Structure of `scoreCandidate` results -/

theorem computeTokenOverlapScore_score (it ct : List JStr) (r : MatchReason)
    (h : computeTokenOverlapScore it ct = some r) :
    r.score = 80 ∨ r.score = 70 ∨ r.score = 60 := by
  simp only [computeTokenOverlapScore] at h
  split at h
  · exact Option.noConfusion h
  · split at h
    · exact Option.noConfusion h
    · split at h
      · left; rw [← Option.some.inj h]
      · split at h
        · right; left; rw [← Option.some.inj h]
        · split at h
          · right; right; rw [← Option.some.inj h]
          · exact Option.noConfusion h

theorem computeAliasTokenOverlap_go_score (it : List JStr)
    (sets : List (List JStr)) (r : MatchReason)
    (h : computeAliasTokenOverlap.go it sets = some r) : r.score = 70 := by
  induction sets with
  | nil => exact Option.noConfusion h
  | cons ts rest ih =>
    simp only [computeAliasTokenOverlap.go] at h
    split at h
    · exact ih h
    · split at h
      · rw [← Option.some.inj h]
      · exact ih h

theorem computeAliasTokenOverlap_score (it : List JStr)
    (sets : List (List JStr)) (r : MatchReason)
    (h : computeAliasTokenOverlap it sets = some r) : r.score = 70 := by
  rw [computeAliasTokenOverlap] at h
  split at h
  · exact Option.noConfusion h
  · exact computeAliasTokenOverlap_go_score it sets r h

theorem computeEmbeddingReason_score (simOpt : Option ℚ) (r : MatchReason)
    (h : computeEmbeddingReason simOpt = some r) : (60 : ℚ) ≤ r.score := by
  rcases simOpt with _ | s
  · exact Option.noConfusion h
  · rw [computeEmbeddingReason] at h
    split at h
    · exact Option.noConfusion h
    · rw [← Option.some.inj h]
      have hs : (3/5 : ℚ) ≤ s := le_of_not_lt (by assumption)
      have h60 : (60 : ℤ) ≤ jsRound (s * 100) := by
        apply jsRound_ge_of_le
        push_cast
        nlinarith
      show (60 : ℚ) ≤ ((jsRound (s * 100) : ℤ) : ℚ)
      exact_mod_cast h60

theorem handleTokenOverlap_nil_score (it ct : List JStr) (b : Bool)
    (r : MatchReason)
    (h : r ∈ handleTokenOverlap [] (computeTokenOverlapScore it ct) b) :
    r.score = 100 ∨ r.score = 80 ∨ r.score = 70 ∨ r.score = 60 := by
  rcases ht : computeTokenOverlapScore it ct with _ | r0
  · rw [ht] at h
    simp [handleTokenOverlap] at h
  · rw [ht] at h
    simp only [handleTokenOverlap] at h
    split at h
    · simp only [List.nil_append, List.mem_append, List.mem_singleton] at h
      rcases h with rfl | rfl
      · rcases computeTokenOverlapScore_score it ct _ ht with h' | h' | h'
        · right; left; exact h'
        · right; right; left; exact h'
        · right; right; right; exact h'
      · left; rfl
    · simp only [List.nil_append, List.mem_singleton] at h
      subst h
      rcases computeTokenOverlapScore_score it ct _ ht with h' | h' | h'
      · right; left; exact h'
      · right; right; left; exact h'
      · right; right; right; exact h'

/-- Every reason the scorer emits has score at least 42 (hence positive). -/
theorem scoreReasons_score_ge (ingredient : ParsedIngredient)
    (candidate : IndexedFood) (simOpt : Option ℚ) (r : MatchReason)
    (h : r ∈ scoreReasons ingredient candidate simOpt) : (42 : ℚ) ≤ r.score := by
  simp only [scoreReasons, List.mem_append] at h
  rcases h with ((((((h | h) | h) | h) | h) | h) | h)
  · split at h
    · rcases List.mem_singleton.mp h with rfl; norm_num
    · simp at h
  · split at h
    · rcases List.mem_singleton.mp h with rfl; norm_num
    · simp at h
  · split at h
    · rcases List.mem_singleton.mp h with rfl; norm_num
    · simp at h
  · rcases handleTokenOverlap_nil_score _ _ _ r h with h' | h' | h' | h' <;>
      rw [h'] <;> norm_num
  · generalize hm : computeAliasTokenOverlap
      (ingredient.normalizedTokens.getD
        (normalizeIngredientName ingredient.name).tokens)
      candidate.aliasTokenSets = lv at h
    rcases lv with _ | a
    · simp at h
    · dsimp only at h
      rcases List.mem_singleton.mp h with rfl
      rw [computeAliasTokenOverlap_score _ _ _ hm]
      norm_num
  · generalize computeLevenshteinSimilarity
      (normalizeForComparison ingredient.name) candidate.normalizedName = lv at h
    rcases lv with _ | fs
    · simp at h
    · dsimp only at h
      split at h
      · rename_i hfs
        rcases List.mem_singleton.mp h with rfl
        have h42 : (42 : ℤ) ≤ jsRound (fs * 70) := by
          apply jsRound_ge_of_le
          push_cast
          nlinarith
        show (42 : ℚ) ≤ ((jsRound (fs * 70) : ℤ) : ℚ)
        exact_mod_cast h42
      · simp at h
  · generalize he : computeEmbeddingReason simOpt = lv at h
    rcases lv with _ | e
    · simp at h
    · dsimp only at h
      rcases List.mem_singleton.mp h with rfl
      exact le_trans (by norm_num) (computeEmbeddingReason_score simOpt _ he)

theorem scoreCandidate_inv (ingredient : ParsedIngredient)
    (candidate : IndexedFood) (simOpt : Option ℚ) (c : FoodMatchCandidate)
    (h : scoreCandidate ingredient candidate simOpt = some c) :
    c.reasons = scoreReasons ingredient candidate simOpt ∧
    c.confidence = combineScores (scoreReasons ingredient candidate simOpt) ∧
    c.reasons ≠ [] ∧ 0 < c.confidence ∧
    c.food = ⟨candidate.id, candidate.name, none, candidate.aliases⟩ ∧
    normalizeForComparison ingredient.name ≠ [] := by
  rw [scoreCandidate] at h
  split at h
  · exact Option.noConfusion h
  · rename_i hnn
    dsimp only at h
    split at h
    · exact Option.noConfusion h
    · rename_i hlen
      split at h
      · exact Option.noConfusion h
      · rename_i hpos
        rcases Option.some.inj h with rfl
        refine ⟨rfl, rfl, ?_, lt_of_not_le hpos, rfl, hnn⟩
        intro hnil
        have hnil' : scoreReasons ingredient candidate simOpt = [] := hnil
        rw [hnil'] at hlen
        exact hlen rfl

theorem rank_mem_inv (ingredient : ParsedIngredient)
    (foods : List FoodLookupItem) (sim : FoodLookupItem → Option ℚ)
    (c : FoodMatchCandidate) (h : c ∈ rankFoodCandidates ingredient foods sim) :
    ∃ f ∈ foods, scoreCandidate ingredient (buildIndexEntry f) (sim f) = some c := by
  rw [rankFoodCandidates] at h
  split at h
  · exact absurd h (List.not_mem_nil c)
  · exact List.mem_filterMap.mp ((mem_sortDescBy _ _ _).mp h)

/-- **C2.** Ranked output is sorted by non-increasing confidence, and for
every confidence value the candidates carrying it appear in exactly the order
their catalog entries had in the input list (stability of the sort). -/
theorem C2_rank_sorted_stable (ingredient : ParsedIngredient)
    (foods : List FoodLookupItem) (sim : FoodLookupItem → Option ℚ) :
    (rankFoodCandidates ingredient foods sim).Pairwise
      (fun a b => b.confidence ≤ a.confidence) ∧
    ∀ k : ℤ,
      (rankFoodCandidates ingredient foods sim).filter
          (fun c => decide (c.confidence = k)) =
        (foods.filterMap
            (fun f => scoreCandidate ingredient (buildIndexEntry f) (sim f))).filter
          (fun c => decide (c.confidence = k)) := by
  rw [rankFoodCandidates]
  split
  · have hf : foods = [] := List.length_eq_zero.mp (by assumption)
    subst hf
    exact ⟨List.Pairwise.nil, fun k => by simp⟩
  · exact ⟨sortDescBy_pairwise _ _, fun k => sortDescBy_filter _ _ k⟩

/-- **C3.** Every candidate in ranked output has a non-empty reason list and
an integer confidence in (0, 100]; a pair for which no signal fired never
produces a candidate (`scoreCandidate` returns `none` on an empty reason
list). -/
theorem C3_candidate_invariants (ingredient : ParsedIngredient)
    (foods : List FoodLookupItem) (sim : FoodLookupItem → Option ℚ)
    (c : FoodMatchCandidate) (h : c ∈ rankFoodCandidates ingredient foods sim) :
    c.reasons ≠ [] ∧ 0 < c.confidence ∧ c.confidence ≤ 100 ∧
    (∀ (ing2 : ParsedIngredient) (cand : IndexedFood) (s : Option ℚ),
      scoreReasons ing2 cand s = [] → scoreCandidate ing2 cand s = none) := by
  obtain ⟨f, _, hs⟩ := rank_mem_inv ingredient foods sim c h
  obtain ⟨hr, hconf, hne, hpos, _, _⟩ := scoreCandidate_inv _ _ _ _ hs
  refine ⟨hne, hpos, ?_, ?_⟩
  · rw [hconf]
    exact combineScores_le_100 _
  · intro ing2 cand s hr2
    rw [scoreCandidate]
    split
    · rfl
    · simp [hr2]

/-- **C3 witness**: the theorem applied to a concrete ranking in which the
single catalog entry "aab" matches ingredient "aaa" by fuzzy similarity. -/
theorem C3_candidate_invariants_witness :
    (⟨⟨"x".toList, "aab".toList, none, none⟩, 47,
        [⟨MatchReasonType.fuzzySimilarity, 47, some ⟨none, none, some (2/3)⟩⟩]⟩ :
        FoodMatchCandidate) ∈
      rankFoodCandidates ⟨"aaa".toList, none, none, "aaa".toList, none, none⟩
        [⟨"x".toList, "aab".toList, none, none⟩] (fun _ => none) ∧
    ((⟨⟨"x".toList, "aab".toList, none, none⟩, 47,
        [⟨MatchReasonType.fuzzySimilarity, 47, some ⟨none, none, some (2/3)⟩⟩]⟩ :
        FoodMatchCandidate).reasons ≠ [] ∧
      0 < (47 : ℤ) ∧ (47 : ℤ) ≤ 100 ∧
      (∀ (ing2 : ParsedIngredient) (cand : IndexedFood) (s : Option ℚ),
        scoreReasons ing2 cand s = [] → scoreCandidate ing2 cand s = none)) :=
  ⟨by decide,
    C3_candidate_invariants ⟨"aaa".toList, none, none, "aaa".toList, none, none⟩
      [⟨"x".toList, "aab".toList, none, none⟩] (fun _ => none)
      ⟨⟨"x".toList, "aab".toList, none, none⟩, 47,
        [⟨MatchReasonType.fuzzySimilarity, 47, some ⟨none, none, some (2/3)⟩⟩]⟩
      (by decide)⟩

/-! ## C1: exact-name matches -/

theorem scoreReasons_exact_head (ingredient : ParsedIngredient)
    (candidate : IndexedFood) (simOpt : Option ℚ)
    (heq : candidate.normalizedName = normalizeForComparison ingredient.name) :
    ∃ t, scoreReasons ingredient candidate simOpt =
      ⟨MatchReasonType.exactName, 100, none⟩ :: t := by
  simp only [scoreReasons, if_pos heq, List.cons_append, List.nil_append,
    List.append_assoc]
  exact ⟨_, rfl⟩

theorem scoreCandidate_exact (ingredient : ParsedIngredient)
    (candidate : IndexedFood) (simOpt : Option ℚ)
    (hne : ¬ normalizeForComparison ingredient.name = [])
    (heq : candidate.normalizedName = normalizeForComparison ingredient.name) :
    scoreCandidate ingredient candidate simOpt =
      some ⟨⟨candidate.id, candidate.name, none, candidate.aliases⟩, 100,
        scoreReasons ingredient candidate simOpt⟩ := by
  obtain ⟨t, ht⟩ := scoreReasons_exact_head ingredient candidate simOpt heq
  have h100 : combineScores (scoreReasons ingredient candidate simOpt) = 100 := by
    apply combineScores_eq_100 _ ⟨MatchReasonType.exactName, 100, none⟩
    · rw [ht]; exact List.mem_cons_self _ _
    · norm_num
    · intro s hs
      exact le_trans (by norm_num) (scoreReasons_score_ge _ _ _ s hs)
  have hlen : ¬ (scoreReasons ingredient candidate simOpt).length = 0 := by
    rw [ht]; simp
  rw [scoreCandidate, if_neg hne]
  dsimp only
  rw [if_neg hlen]
  simp [h100]

theorem rank_conf_le_100 (ingredient : ParsedIngredient)
    (foods : List FoodLookupItem) (sim : FoodLookupItem → Option ℚ)
    (c : FoodMatchCandidate) (h : c ∈ rankFoodCandidates ingredient foods sim) :
    c.confidence ≤ 100 := by
  obtain ⟨f, _, hs⟩ := rank_mem_inv ingredient foods sim c h
  obtain ⟨_, hconf, _⟩ := scoreCandidate_inv _ _ _ _ hs
  rw [hconf]
  exact combineScores_le_100 _

theorem rank_head_max (ingredient : ParsedIngredient)
    (foods : List FoodLookupItem) (sim : FoodLookupItem → Option ℚ)
    (top c : FoodMatchCandidate)
    (h : (rankFoodCandidates ingredient foods sim).head? = some top)
    (hc : c ∈ rankFoodCandidates ingredient foods sim) :
    c.confidence ≤ top.confidence := by
  by_cases h0 : foods.length = 0
  · rw [rankFoodCandidates, if_pos h0] at h
    exact Option.noConfusion h
  · rw [rankFoodCandidates, if_neg h0] at h hc
    exact sortDescBy_head_ge _ _ c top ((mem_sortDescBy _ _ _).mp hc) h

/-- **C1 (amended).** If the normalized ingredient name is non-empty and equal
to the normalized name of catalog entry `e`, then `e` appears in the ranked
list with confidence exactly 100 and an exact-name reason, and the top-ranked
candidate has confidence exactly 100.  (The top candidate need not be `e`
itself: an earlier catalog entry can also reach confidence 100 — e.g. through
a perfect token match — and the stable sort keeps it in front.) -/
theorem C1_exact_name (ingredient : ParsedIngredient)
    (foods : List FoodLookupItem) (sim : FoodLookupItem → Option ℚ)
    (e : FoodLookupItem) (hmem : e ∈ foods)
    (hne : ¬ normalizeForComparison ingredient.name = [])
    (heq : (buildIndexEntry e).normalizedName =
      normalizeForComparison ingredient.name) :
    (∃ c ∈ rankFoodCandidates ingredient foods sim,
      c.food.id = e.id ∧ c.food.name = e.name ∧ c.confidence = 100 ∧
      ∃ r ∈ c.reasons,
        r.rtype = MatchReasonType.exactName ∧ r.score = 100) ∧
    ∀ top, (rankFoodCandidates ingredient foods sim).head? = some top →
      top.confidence = 100 := by
  have hscore := scoreCandidate_exact ingredient (buildIndexEntry e) (sim e) hne heq
  have hc0mem :
      (⟨⟨(buildIndexEntry e).id, (buildIndexEntry e).name, none,
          (buildIndexEntry e).aliases⟩, 100,
        scoreReasons ingredient (buildIndexEntry e) (sim e)⟩ : FoodMatchCandidate) ∈
      rankFoodCandidates ingredient foods sim := by
    rw [rankFoodCandidates]
    split
    · rename_i h0
      exact absurd (List.length_eq_zero.mp h0 ▸ hmem) (List.not_mem_nil e)
    · exact (mem_sortDescBy _ _ _).mpr
        (List.mem_filterMap.mpr ⟨e, hmem, hscore⟩)
  obtain ⟨t, ht⟩ := scoreReasons_exact_head ingredient (buildIndexEntry e) (sim e) heq
  constructor
  · refine ⟨_, hc0mem, rfl, rfl, rfl, ⟨MatchReasonType.exactName, 100, none⟩, ?_, rfl, rfl⟩
    show _ ∈ scoreReasons ingredient (buildIndexEntry e) (sim e)
    rw [ht]
    exact List.mem_cons_self _ _
  · intro top htop
    have htopmem : top ∈ rankFoodCandidates ingredient foods sim := by
      rcases hl : rankFoodCandidates ingredient foods sim with _ | ⟨x, xs⟩
      · rw [hl] at htop; exact Option.noConfusion htop
      · rw [hl] at htop
        simp only [List.head?] at htop
        rw [Option.some.inj htop]
        exact List.mem_cons_self _ _
    have hle : top.confidence ≤ 100 :=
      rank_conf_le_100 ingredient foods sim top htopmem
    have hge : (100 : ℤ) ≤ top.confidence :=
      rank_head_max ingredient foods sim top _ htop hc0mem
    omega

/-- **C1 witness**: the theorem applied to ingredient "bell pepper" and the
one-entry catalog ["Bell Pepper"]. -/
theorem C1_exact_name_witness :
    ((⟨"b".toList, "Bell Pepper".toList, none, none⟩ : FoodLookupItem) ∈
      [(⟨"b".toList, "Bell Pepper".toList, none, none⟩ : FoodLookupItem)] ∧
     ¬ normalizeForComparison "bell pepper".toList = [] ∧
     (buildIndexEntry ⟨"b".toList, "Bell Pepper".toList, none, none⟩).normalizedName =
       normalizeForComparison "bell pepper".toList) ∧
    ((∃ c ∈ rankFoodCandidates
        ⟨"bell pepper".toList, none, none, "bell pepper".toList, none, none⟩
        [⟨"b".toList, "Bell Pepper".toList, none, none⟩] (fun _ => none),
      c.food.id = "b".toList ∧ c.food.name = "Bell Pepper".toList ∧
      c.confidence = 100 ∧
      ∃ r ∈ c.reasons,
        r.rtype = MatchReasonType.exactName ∧ r.score = 100) ∧
    ∀ top, (rankFoodCandidates
        ⟨"bell pepper".toList, none, none, "bell pepper".toList, none, none⟩
        [⟨"b".toList, "Bell Pepper".toList, none, none⟩]
        (fun _ => none)).head? = some top → top.confidence = 100) :=
  ⟨⟨by decide, by decide, by decide⟩,
    C1_exact_name
      ⟨"bell pepper".toList, none, none, "bell pepper".toList, none, none⟩
      [⟨"b".toList, "Bell Pepper".toList, none, none⟩] (fun _ => none)
      ⟨"b".toList, "Bell Pepper".toList, none, none⟩
      (by decide) (by decide) (by decide)⟩

set_option maxRecDepth 4000 in
/-- **C1 counterexample**: for ingredient "bell pepper" against the catalog
["Pepper Bell", "Bell Pepper"], the second entry's normalized name equals the
ingredient's normalized name, yet the ranked list's top candidate is the
*first* entry (a confidence-100 perfect token match, kept in front by the
stable sort), which carries no exact-name reason — refuting the claim that
the matching entry is always the top candidate. -/
theorem C1_exact_name_counterexample :
    (buildIndexEntry ⟨"b".toList, "Bell Pepper".toList, none, none⟩).normalizedName =
      normalizeForComparison "bell pepper".toList ∧
    ¬ normalizeForComparison "bell pepper".toList = [] ∧
    (rankFoodCandidates
        ⟨"bell pepper".toList, none, none, "bell pepper".toList, none, none⟩
        [⟨"a".toList, "Pepper Bell".toList, none, none⟩,
         ⟨"b".toList, "Bell Pepper".toList, none, none⟩]
        (fun _ => none)).head? =
      some ⟨⟨"a".toList, "Pepper Bell".toList, none, none⟩, 100,
        [⟨MatchReasonType.tokenOverlap, 80, some ⟨some 1, none, none⟩⟩,
         ⟨MatchReasonType.tokenOverlap, 100, some ⟨some 1, some true, none⟩⟩]⟩ ∧
    ¬ ("a".toList : JStr) = "b".toList ∧
    ¬ ∃ r ∈ [(⟨MatchReasonType.tokenOverlap, 80, some ⟨some 1, none, none⟩⟩ : MatchReason),
        ⟨MatchReasonType.tokenOverlap, 100, some ⟨some 1, some true, none⟩⟩],
      r.rtype = MatchReasonType.exactName := by
  refine ⟨by decide, by decide, by decide, by decide, by decide⟩

/-! ## C5: categorization thresholds -/

/-- **C5 (amended).** The categorizer assigns auto-match to the post-veto,
post-validity best candidate exactly when its confidence reaches the hard
threshold, or when its confidence is at least **85** (not 80, as the claim
states) and it carries a perfect-token-match reason; otherwise probable when
the confidence reaches the soft threshold, and pending-review otherwise. -/
theorem C5_categorize (hard soft : ℤ) (ranked : List FoodMatchCandidate)
    (ingredient : ParsedIngredient) (c : FoodMatchCandidate)
    (hv : checkGotchaAndTryNext ranked ingredient = some c)
    (hvalid : isValidMatch ingredient c = true) :
    categorizeMatch hard soft ranked ingredient =
      if hard ≤ c.confidence ∨ (85 ≤ c.confidence ∧ hasPerfectTokenMatch c) then
        ⟨some c, none, some c⟩
      else if soft ≤ c.confidence then ⟨none, some c, some c⟩
      else ⟨none, none, some c⟩ := by
  cases ranked with
  | nil => exact Option.noConfusion hv
  | cons top rest =>
    simp only [categorizeMatch, categorizeStep, hv, hvalid, if_true]

/-- **C5 counterexample**: a candidate with confidence 84 carrying a
perfect-token-match reason, flagged by no veto and valid, is categorized as
*probable* under the default thresholds, while the claim (confidence ≥ 80
plus perfect token match) demands auto-match.  The source requires 85. -/
theorem C5_categorize_counterexample :
    checkGotchaAndTryNext
        [⟨⟨"x".toList, "Apple".toList, none, none⟩, 84,
          [⟨MatchReasonType.tokenOverlap, 100, some ⟨some 1, some true, none⟩⟩]⟩]
        ⟨"apple".toList, none, none, "apple".toList, none, none⟩ =
      some ⟨⟨"x".toList, "Apple".toList, none, none⟩, 84,
        [⟨MatchReasonType.tokenOverlap, 100, some ⟨some 1, some true, none⟩⟩]⟩ ∧
    isValidMatch ⟨"apple".toList, none, none, "apple".toList, none, none⟩
      ⟨⟨"x".toList, "Apple".toList, none, none⟩, 84,
        [⟨MatchReasonType.tokenOverlap, 100, some ⟨some 1, some true, none⟩⟩]⟩ = true ∧
    hasPerfectTokenMatch
      ⟨⟨"x".toList, "Apple".toList, none, none⟩, 84,
        [⟨MatchReasonType.tokenOverlap, 100, some ⟨some 1, some true, none⟩⟩]⟩ = true ∧
    (80 : ℤ) ≤ 84 ∧ (84 : ℤ) < HARD_MATCH_THRESHOLD none ∧
    categorizeMatch (HARD_MATCH_THRESHOLD none) (SOFT_MATCH_THRESHOLD none)
        [⟨⟨"x".toList, "Apple".toList, none, none⟩, 84,
          [⟨MatchReasonType.tokenOverlap, 100, some ⟨some 1, some true, none⟩⟩]⟩]
        ⟨"apple".toList, none, none, "apple".toList, none, none⟩ =
      ⟨none,
        some ⟨⟨"x".toList, "Apple".toList, none, none⟩, 84,
          [⟨MatchReasonType.tokenOverlap, 100, some ⟨some 1, some true, none⟩⟩]⟩,
        some ⟨⟨"x".toList, "Apple".toList, none, none⟩, 84,
          [⟨MatchReasonType.tokenOverlap, 100, some ⟨some 1, some true, none⟩⟩]⟩⟩ := by
  refine ⟨by decide, by decide, by decide, by decide, by decide, by decide⟩

/-- **C5 witness**: the amended theorem applied to a concrete one-element
ranked list (confidence 85, perfect token match, default thresholds). -/
theorem C5_categorize_witness :
    (checkGotchaAndTryNext
        [⟨⟨"x".toList, "Apple".toList, none, none⟩, 85,
          [⟨MatchReasonType.tokenOverlap, 100, some ⟨some 1, some true, none⟩⟩]⟩]
        ⟨"apple".toList, none, none, "apple".toList, none, none⟩ =
      some ⟨⟨"x".toList, "Apple".toList, none, none⟩, 85,
        [⟨MatchReasonType.tokenOverlap, 100, some ⟨some 1, some true, none⟩⟩]⟩) ∧
    (isValidMatch ⟨"apple".toList, none, none, "apple".toList, none, none⟩
      ⟨⟨"x".toList, "Apple".toList, none, none⟩, 85,
        [⟨MatchReasonType.tokenOverlap, 100, some ⟨some 1, some true, none⟩⟩]⟩ = true) ∧
    categorizeMatch 90 70
        [⟨⟨"x".toList, "Apple".toList, none, none⟩, 85,
          [⟨MatchReasonType.tokenOverlap, 100, some ⟨some 1, some true, none⟩⟩]⟩]
        ⟨"apple".toList, none, none, "apple".toList, none, none⟩ =
      (if (90 : ℤ) ≤ (85 : ℤ) ∨ ((85 : ℤ) ≤ (85 : ℤ) ∧
          hasPerfectTokenMatch
            ⟨⟨"x".toList, "Apple".toList, none, none⟩, 85,
              [⟨MatchReasonType.tokenOverlap, 100, some ⟨some 1, some true, none⟩⟩]⟩) then
        ⟨some ⟨⟨"x".toList, "Apple".toList, none, none⟩, 85,
          [⟨MatchReasonType.tokenOverlap, 100, some ⟨some 1, some true, none⟩⟩]⟩, none,
          some ⟨⟨"x".toList, "Apple".toList, none, none⟩, 85,
            [⟨MatchReasonType.tokenOverlap, 100, some ⟨some 1, some true, none⟩⟩]⟩⟩
      else if (70 : ℤ) ≤ (85 : ℤ) then
        ⟨none, some ⟨⟨"x".toList, "Apple".toList, none, none⟩, 85,
          [⟨MatchReasonType.tokenOverlap, 100, some ⟨some 1, some true, none⟩⟩]⟩,
          some ⟨⟨"x".toList, "Apple".toList, none, none⟩, 85,
            [⟨MatchReasonType.tokenOverlap, 100, some ⟨some 1, some true, none⟩⟩]⟩⟩
      else ⟨none, none,
        some ⟨⟨"x".toList, "Apple".toList, none, none⟩, 85,
          [⟨MatchReasonType.tokenOverlap, 100, some ⟨some 1, some true, none⟩⟩]⟩⟩) :=
  ⟨by decide, by decide,
    C5_categorize 90 70
      [⟨⟨"x".toList, "Apple".toList, none, none⟩, 85,
        [⟨MatchReasonType.tokenOverlap, 100, some ⟨some 1, some true, none⟩⟩]⟩]
      ⟨"apple".toList, none, none, "apple".toList, none, none⟩
      ⟨⟨"x".toList, "Apple".toList, none, none⟩, 85,
        [⟨MatchReasonType.tokenOverlap, 100, some ⟨some 1, some true, none⟩⟩]⟩
      (by decide) (by decide)⟩

/-! ## C7 and C10: veto fallback and truncation -/

theorem categorizeMatch_cons (hard soft : ℤ) (top : FoodMatchCandidate)
    (rest : List FoodMatchCandidate) (ingredient : ParsedIngredient) :
    categorizeMatch hard soft (top :: rest) ingredient =
      categorizeStep hard soft top rest ingredient
        (categorizeMatch hard soft rest ingredient) := rfl

/-- Shared helper (also backing the C5 theorem): when the gotcha check
settles on a candidate that passes the validity filter, `categorizeMatch`
buckets that candidate by the thresholds. -/
theorem categorizeMatch_of_valid (hard soft : ℤ)
    (ranked : List FoodMatchCandidate) (ingredient : ParsedIngredient)
    (c : FoodMatchCandidate)
    (hv : checkGotchaAndTryNext ranked ingredient = some c)
    (hvalid : isValidMatch ingredient c = true) :
    categorizeMatch hard soft ranked ingredient =
      if hard ≤ c.confidence ∨ (85 ≤ c.confidence ∧ hasPerfectTokenMatch c) then
        ⟨some c, none, some c⟩
      else if soft ≤ c.confidence then ⟨none, some c, some c⟩
      else ⟨none, none, some c⟩ := by
  cases ranked with
  | nil => exact Option.noConfusion hv
  | cons top rest =>
    rw [categorizeMatch_cons]
    simp only [categorizeStep, hv, hvalid, if_true]

theorem checkGotchaAndTryNext_mem (ranked : List FoodMatchCandidate)
    (ingredient : ParsedIngredient) (c : FoodMatchCandidate)
    (h : checkGotchaAndTryNext ranked ingredient = some c) : c ∈ ranked := by
  cases ranked with
  | nil => exact Option.noConfusion h
  | cons best rest =>
    simp only [checkGotchaAndTryNext] at h
    split at h
    · split at h
      · exact Option.noConfusion h
      · split at h
        · rcases Option.some.inj h with rfl
          exact List.mem_cons_of_mem _ (List.mem_cons_self _ _)
        · exact Option.noConfusion h
    · rcases Option.some.inj h with rfl
      exact List.mem_cons_self _ _

theorem categorizeMatch_mem (hard soft : ℤ) (ranked : List FoodMatchCandidate)
    (ingredient : ParsedIngredient) :
    (∀ c, (categorizeMatch hard soft ranked ingredient).autoMatch = some c →
      c ∈ ranked) ∧
    (∀ c, (categorizeMatch hard soft ranked ingredient).probableMatch = some c →
      c ∈ ranked) ∧
    (∀ c, (categorizeMatch hard soft ranked ingredient).best = some c →
      c ∈ ranked) := by
  induction ranked with
  | nil =>
    refine ⟨?_, ?_, ?_⟩ <;> intro c hc <;> exact Option.noConfusion hc
  | cons top rest ih =>
    obtain ⟨ihA, ihP, ihB⟩ := ih
    rcases hg : checkGotchaAndTryNext (top :: rest) ingredient with _ | v
    · refine ⟨?_, ?_, ?_⟩ <;> intro c hc <;>
        rw [categorizeMatch_cons] at hc <;>
        simp only [categorizeStep, hg] at hc
      · exact Option.noConfusion hc
      · exact Option.noConfusion hc
      · rcases Option.some.inj hc with rfl
        exact List.mem_cons_self _ _
    · have hvmem : v ∈ top :: rest := checkGotchaAndTryNext_mem _ _ _ hg
      by_cases hval : isValidMatch ingredient v = true
      · rw [categorizeMatch_of_valid hard soft _ ingredient v hg hval]
        refine ⟨?_, ?_, ?_⟩ <;> intro c hc <;> split at hc <;>
          first
          | exact Option.noConfusion hc
          | (split at hc <;>
              first
              | exact Option.noConfusion hc
              | (rcases Option.some.inj hc with rfl; exact hvmem))
          | (rcases Option.some.inj hc with rfl; exact hvmem)
      · cases rest with
        | nil =>
          refine ⟨?_, ?_, ?_⟩ <;> intro c hc <;>
            rw [categorizeMatch_cons] at hc <;>
            simp only [categorizeStep, hg, if_neg hval] at hc
          · exact Option.noConfusion hc
          · exact Option.noConfusion hc
          · rcases Option.some.inj hc with rfl
            exact List.mem_cons_self _ _
        | cons nb rtail =>
          by_cases hnbval : isValidMatch ingredient nb = true
          · refine ⟨?_, ?_, ?_⟩ <;> intro c hc <;>
              rw [categorizeMatch_cons] at hc <;>
              simp only [categorizeStep, hg, if_neg hval, hnbval, if_true] at hc
            · exact List.mem_cons_of_mem _ (ihA c hc)
            · exact List.mem_cons_of_mem _ (ihP c hc)
            · exact List.mem_cons_of_mem _ (ihB c hc)
          · refine ⟨?_, ?_, ?_⟩ <;> intro c hc <;>
              rw [categorizeMatch_cons] at hc <;>
              simp only [categorizeStep, hg, if_neg hval, if_neg hnbval] at hc
            · exact Option.noConfusion hc
            · exact Option.noConfusion hc
            · rcases Option.some.inj hc with rfl
              exact List.mem_cons_self _ _

/-- **C7.** When the veto engine flags the top-ranked candidate, the second
candidate is evaluated; if the second is also flagged or absent, the
categorizer yields no auto-match and no probable match while still returning
the original top candidate as the best suggestion; a third or later
candidate is never selected (any accepted candidate is the second one).  In
particular, for ingredient "salt" with ranked candidates ["Salted Butter",
"Table Salt"], the accepted match (auto ?? probable) is "Table Salt". -/
theorem C7_veto_fallback (hard soft : ℤ) (ranked : List FoodMatchCandidate)
    (ingredient : ParsedIngredient) (top : FoodMatchCandidate)
    (htop : ranked.head? = some top)
    (hflag : (checkProblematicMatch ingredient top).isProblematic = true) :
    ((∀ nb, ranked.tail.head? = some nb →
        (checkProblematicMatch ingredient nb).isProblematic = true) →
      categorizeMatch hard soft ranked ingredient = ⟨none, none, some top⟩) ∧
    (∀ c, (categorizeMatch hard soft ranked ingredient).autoMatch = some c ∨
        (categorizeMatch hard soft ranked ingredient).probableMatch = some c →
      ranked.tail.head? = some c) ∧
    ((checkProblematicMatch
        ⟨"salt".toList, none, none, "salt".toList, none, none⟩
        ⟨⟨"sb".toList, "Salted Butter".toList, none, none⟩, 85,
          [⟨MatchReasonType.tokenOverlap, 80, none⟩]⟩).isProblematic = true ∧
      categorizeMatch 90 70
        [⟨⟨"sb".toList, "Salted Butter".toList, none, none⟩, 85,
          [⟨MatchReasonType.tokenOverlap, 80, none⟩]⟩,
         ⟨⟨"ts".toList, "Table Salt".toList, none, none⟩, 75,
          [⟨MatchReasonType.tokenOverlap, 80, none⟩]⟩]
        ⟨"salt".toList, none, none, "salt".toList, none, none⟩ =
      ⟨none,
        some ⟨⟨"ts".toList, "Table Salt".toList, none, none⟩, 75,
          [⟨MatchReasonType.tokenOverlap, 80, none⟩]⟩,
        some ⟨⟨"ts".toList, "Table Salt".toList, none, none⟩, 75,
          [⟨MatchReasonType.tokenOverlap, 80, none⟩]⟩⟩) := by
  cases ranked with
  | nil => exact Option.noConfusion htop
  | cons t rest =>
    simp only [List.head?] at htop
    rcases Option.some.inj htop with rfl
    cases rest with
    | nil =>
      have hg : checkGotchaAndTryNext [t] ingredient = none := by
        simp [checkGotchaAndTryNext, hflag]
      refine ⟨?_, ?_, by decide, by decide⟩
      · intro _
        rw [categorizeMatch_cons]
        simp [categorizeStep, hg]
      · intro c hc
        rw [categorizeMatch_cons] at hc
        simp [categorizeStep, hg] at hc
    | cons nb rtail =>
      by_cases hnb : (checkProblematicMatch ingredient nb).isProblematic = true
      · have hg : checkGotchaAndTryNext (t :: nb :: rtail) ingredient = none := by
          simp [checkGotchaAndTryNext, hflag, hnb]
        refine ⟨?_, ?_, by decide, by decide⟩
        · intro _
          rw [categorizeMatch_cons]
          simp [categorizeStep, hg]
        · intro c hc
          rw [categorizeMatch_cons] at hc
          simp [categorizeStep, hg] at hc
      · have hnb' : (checkProblematicMatch ingredient nb).isProblematic = false :=
          Bool.not_eq_true _ ▸ eq_false_of_ne_true hnb
        have hg : checkGotchaAndTryNext (t :: nb :: rtail) ingredient = some nb := by
          simp [checkGotchaAndTryNext, hflag, hnb']
        refine ⟨?_, ?_, by decide, by decide⟩
        · intro hall
          exact absurd (hall nb rfl) hnb
        · intro c hc
          by_cases hval : isValidMatch ingredient nb = true
          · rw [categorizeMatch_of_valid hard soft _ ingredient nb hg hval] at hc
            rcases hc with hc | hc <;> split at hc <;>
              first
              | exact Option.noConfusion hc
              | (split at hc <;>
                  first
                  | exact Option.noConfusion hc
                  | (rcases Option.some.inj hc with rfl; rfl))
              | (rcases Option.some.inj hc with rfl; rfl)
          · rw [categorizeMatch_cons] at hc
            simp only [categorizeStep, hg, if_neg hval] at hc
            rcases hc with hc | hc <;> exact Option.noConfusion hc

/-- **C7 witness**: the theorem applied to a concrete ranked list in which
the top candidate ("Salted Butter") is flagged for ingredient "salt". -/
theorem C7_veto_fallback_witness :
    ([⟨⟨"sb".toList, "Salted Butter".toList, none, none⟩, 85,
        [⟨MatchReasonType.tokenOverlap, 80, none⟩]⟩,
      ⟨⟨"ts".toList, "Table Salt".toList, none, none⟩, 75,
        [⟨MatchReasonType.tokenOverlap, 80, none⟩]⟩] :
      List FoodMatchCandidate).head? =
      some ⟨⟨"sb".toList, "Salted Butter".toList, none, none⟩, 85,
        [⟨MatchReasonType.tokenOverlap, 80, none⟩]⟩ ∧
    (checkProblematicMatch ⟨"salt".toList, none, none, "salt".toList, none, none⟩
      ⟨⟨"sb".toList, "Salted Butter".toList, none, none⟩, 85,
        [⟨MatchReasonType.tokenOverlap, 80, none⟩]⟩).isProblematic = true ∧
    (∀ c, (categorizeMatch 90 70
        [⟨⟨"sb".toList, "Salted Butter".toList, none, none⟩, 85,
          [⟨MatchReasonType.tokenOverlap, 80, none⟩]⟩,
         ⟨⟨"ts".toList, "Table Salt".toList, none, none⟩, 75,
          [⟨MatchReasonType.tokenOverlap, 80, none⟩]⟩]
        ⟨"salt".toList, none, none, "salt".toList, none, none⟩).autoMatch = some c ∨
      (categorizeMatch 90 70
        [⟨⟨"sb".toList, "Salted Butter".toList, none, none⟩, 85,
          [⟨MatchReasonType.tokenOverlap, 80, none⟩]⟩,
         ⟨⟨"ts".toList, "Table Salt".toList, none, none⟩, 75,
          [⟨MatchReasonType.tokenOverlap, 80, none⟩]⟩]
        ⟨"salt".toList, none, none, "salt".toList, none, none⟩).probableMatch = some c →
      ([⟨⟨"sb".toList, "Salted Butter".toList, none, none⟩, 85,
          [⟨MatchReasonType.tokenOverlap, 80, none⟩]⟩,
        ⟨⟨"ts".toList, "Table Salt".toList, none, none⟩, 75,
          [⟨MatchReasonType.tokenOverlap, 80, none⟩]⟩] :
        List FoodMatchCandidate).tail.head? = some c) :=
  ⟨by decide, by decide,
    (C7_veto_fallback 90 70
      [⟨⟨"sb".toList, "Salted Butter".toList, none, none⟩, 85,
        [⟨MatchReasonType.tokenOverlap, 80, none⟩]⟩,
       ⟨⟨"ts".toList, "Table Salt".toList, none, none⟩, 75,
        [⟨MatchReasonType.tokenOverlap, 80, none⟩]⟩]
      ⟨"salt".toList, none, none, "salt".toList, none, none⟩
      ⟨⟨"sb".toList, "Salted Butter".toList, none, none⟩, 85,
        [⟨MatchReasonType.tokenOverlap, 80, none⟩]⟩
      (by decide) (by decide)).2.1⟩

/-- **C10.** The orchestrator truncates the ranked list to at most
`MAX_CANDIDATES = 5` entries before the veto engine and categorizer run: the
candidates attached to a matched ingredient are exactly the top five ranked
candidates (so at most five), and the chosen match and best suggestion are
always drawn from those top five, even though the ranker itself returns all
surviving candidates. -/
theorem C10_truncation (hard soft : ℤ) (sim : FoodLookupItem → Option ℚ)
    (lookup : List FoodLookupItem) (ingredient : ParsedIngredient) :
    (matchOneIngredient hard soft sim lookup ingredient).candidates =
      (rankFoodCandidates ingredient lookup sim).take MAX_CANDIDATES ∧
    (matchOneIngredient hard soft sim lookup ingredient).candidates.length ≤ 5 ∧
    (∀ c, (matchOneIngredient hard soft sim lookup ingredient).chosenMatch = some c →
      c ∈ (rankFoodCandidates ingredient lookup sim).take MAX_CANDIDATES) ∧
    (∀ c, (matchOneIngredient hard soft sim lookup ingredient).bestSuggestion = some c →
      c ∈ (rankFoodCandidates ingredient lookup sim).take MAX_CANDIDATES) := by
  have hcand : (matchOneIngredient hard soft sim lookup ingredient).candidates =
      (rankFoodCandidates ingredient lookup sim).take MAX_CANDIDATES := by
    rw [matchOneIngredient]
    by_cases h0 : lookup.length ≠ 0
    · simp only [if_pos h0]
    · simp only [if_neg h0]
      have hl : lookup = [] := by
        rcases lookup with _ | ⟨x, xs⟩
        · rfl
        · exact absurd (by simp) h0
      subst hl
      rfl
  obtain ⟨hA, hP, hB⟩ := categorizeMatch_mem hard soft
    (matchOneIngredient hard soft sim lookup ingredient).candidates ingredient
  have hstep : ∀ c,
      (matchOneIngredient hard soft sim lookup ingredient).chosenMatch = some c →
      (categorizeMatch hard soft
          (matchOneIngredient hard soft sim lookup ingredient).candidates
          ingredient).autoMatch = some c ∨
      (categorizeMatch hard soft
          (matchOneIngredient hard soft sim lookup ingredient).candidates
          ingredient).probableMatch = some c ∨
      (categorizeMatch hard soft
          (matchOneIngredient hard soft sim lookup ingredient).candidates
          ingredient).best = some c := by
    intro c hc
    have hc' : ((((categorizeMatch hard soft
        (if lookup.length ≠ 0 then
          (rankFoodCandidates ingredient lookup sim).take MAX_CANDIDATES
        else []) ingredient).autoMatch.orElse
          (fun _ => (categorizeMatch hard soft
            (if lookup.length ≠ 0 then
              (rankFoodCandidates ingredient lookup sim).take MAX_CANDIDATES
            else []) ingredient).probableMatch)).orElse
          (fun _ => (categorizeMatch hard soft
            (if lookup.length ≠ 0 then
              (rankFoodCandidates ingredient lookup sim).take MAX_CANDIDATES
            else []) ingredient).best)) = some c) := hc
    have hcands : (matchOneIngredient hard soft sim lookup ingredient).candidates =
        (if lookup.length ≠ 0 then
          (rankFoodCandidates ingredient lookup sim).take MAX_CANDIDATES
        else []) := rfl
    rw [hcands]
    rcases ha : (categorizeMatch hard soft
        (if lookup.length ≠ 0 then
          (rankFoodCandidates ingredient lookup sim).take MAX_CANDIDATES
        else []) ingredient).autoMatch with _ | a
    · rcases hp : (categorizeMatch hard soft
          (if lookup.length ≠ 0 then
            (rankFoodCandidates ingredient lookup sim).take MAX_CANDIDATES
          else []) ingredient).probableMatch with _ | p
      · right; right
        rw [ha, hp] at hc'
        simpa [Option.orElse] using hc'
      · right; left
        rw [ha, hp] at hc'
        simpa [Option.orElse] using hc'
    · left
      rw [ha] at hc'
      simpa [Option.orElse] using hc'
  refine ⟨hcand, ?_, ?_, ?_⟩
  · rw [hcand, List.length_take]
    exact le_trans (min_le_left _ _) (le_refl 5)
  · intro c hc
    rw [← hcand]
    rcases hstep c hc with h | h | h
    · exact hA c h
    · exact hP c h
    · exact hB c h
  · intro c hc
    rw [← hcand]
    exact hB c hc

/-- **C10 witness**: concrete instantiation with a seven-entry catalog whose
entries all match the ingredient, checking that only five candidates are
attached. -/
theorem C10_truncation_witness :
    ((matchOneIngredient 90 70 (fun _ => none)
        [⟨"1".toList, "pea a".toList, none, none⟩,
         ⟨"2".toList, "pea b".toList, none, none⟩,
         ⟨"3".toList, "pea c".toList, none, none⟩,
         ⟨"4".toList, "pea d".toList, none, none⟩,
         ⟨"5".toList, "pea e".toList, none, none⟩,
         ⟨"6".toList, "pea f".toList, none, none⟩,
         ⟨"7".toList, "pea g".toList, none, none⟩]
        ⟨"pea".toList, none, none, "pea".toList, none, none⟩).candidates =
      (rankFoodCandidates ⟨"pea".toList, none, none, "pea".toList, none, none⟩
        [⟨"1".toList, "pea a".toList, none, none⟩,
         ⟨"2".toList, "pea b".toList, none, none⟩,
         ⟨"3".toList, "pea c".toList, none, none⟩,
         ⟨"4".toList, "pea d".toList, none, none⟩,
         ⟨"5".toList, "pea e".toList, none, none⟩,
         ⟨"6".toList, "pea f".toList, none, none⟩,
         ⟨"7".toList, "pea g".toList, none, none⟩]
        (fun _ => none)).take MAX_CANDIDATES ∧
      (matchOneIngredient 90 70 (fun _ => none)
        [⟨"1".toList, "pea a".toList, none, none⟩,
         ⟨"2".toList, "pea b".toList, none, none⟩,
         ⟨"3".toList, "pea c".toList, none, none⟩,
         ⟨"4".toList, "pea d".toList, none, none⟩,
         ⟨"5".toList, "pea e".toList, none, none⟩,
         ⟨"6".toList, "pea f".toList, none, none⟩,
         ⟨"7".toList, "pea g".toList, none, none⟩]
        ⟨"pea".toList, none, none, "pea".toList, none, none⟩).candidates.length ≤ 5) :=
  ⟨(C10_truncation 90 70 (fun _ => none)
      [⟨"1".toList, "pea a".toList, none, none⟩,
       ⟨"2".toList, "pea b".toList, none, none⟩,
       ⟨"3".toList, "pea c".toList, none, none⟩,
       ⟨"4".toList, "pea d".toList, none, none⟩,
       ⟨"5".toList, "pea e".toList, none, none⟩,
       ⟨"6".toList, "pea f".toList, none, none⟩,
       ⟨"7".toList, "pea g".toList, none, none⟩]
      ⟨"pea".toList, none, none, "pea".toList, none, none⟩).1,
   (C10_truncation 90 70 (fun _ => none)
      [⟨"1".toList, "pea a".toList, none, none⟩,
       ⟨"2".toList, "pea b".toList, none, none⟩,
       ⟨"3".toList, "pea c".toList, none, none⟩,
       ⟨"4".toList, "pea d".toList, none, none⟩,
       ⟨"5".toList, "pea e".toList, none, none⟩,
       ⟨"6".toList, "pea f".toList, none, none⟩,
       ⟨"7".toList, "pea g".toList, none, none⟩]
      ⟨"pea".toList, none, none, "pea".toList, none, none⟩).2.1⟩

/-! ## C8: degenerate inputs never fail -/

theorem isSpaceChar_not_word {c : Char} (h : isSpaceChar c = true) :
    isWordChar c = false := by
  simp only [isSpaceChar, Bool.or_eq_true, decide_eq_true_eq] at h
  rcases h with ((((rfl | rfl) | rfl) | rfl) | rfl) | rfl <;> decide

theorem isSpaceChar_ne_lparen {c : Char} (h : isSpaceChar c = true) :
    ¬ c = '(' := by
  simp only [isSpaceChar, Bool.or_eq_true, decide_eq_true_eq] at h
  rcases h with ((((rfl | rfl) | rfl) | rfl) | rfl) | rfl <;> decide

theorem isSpaceChar_keep {c : Char} (h : isSpaceChar c = true) :
    isSanitizedKeep c = true := by
  simp [isSanitizedKeep, h]

theorem toLowerChar_eq_of_not_upper {c : Char} (hc : c ∉ UPPER_LETTERS) :
    toLowerChar c = c := by
  have h1 : ¬ c = 'A' := fun h => hc (by rw [h]; decide)
  have h2 : ¬ c = 'B' := fun h => hc (by rw [h]; decide)
  have h3 : ¬ c = 'C' := fun h => hc (by rw [h]; decide)
  have h4 : ¬ c = 'D' := fun h => hc (by rw [h]; decide)
  have h5 : ¬ c = 'E' := fun h => hc (by rw [h]; decide)
  have h6 : ¬ c = 'F' := fun h => hc (by rw [h]; decide)
  have h7 : ¬ c = 'G' := fun h => hc (by rw [h]; decide)
  have h8 : ¬ c = 'H' := fun h => hc (by rw [h]; decide)
  have h9 : ¬ c = 'I' := fun h => hc (by rw [h]; decide)
  have h10 : ¬ c = 'J' := fun h => hc (by rw [h]; decide)
  have h11 : ¬ c = 'K' := fun h => hc (by rw [h]; decide)
  have h12 : ¬ c = 'L' := fun h => hc (by rw [h]; decide)
  have h13 : ¬ c = 'M' := fun h => hc (by rw [h]; decide)
  have h14 : ¬ c = 'N' := fun h => hc (by rw [h]; decide)
  have h15 : ¬ c = 'O' := fun h => hc (by rw [h]; decide)
  have h16 : ¬ c = 'P' := fun h => hc (by rw [h]; decide)
  have h17 : ¬ c = 'Q' := fun h => hc (by rw [h]; decide)
  have h18 : ¬ c = 'R' := fun h => hc (by rw [h]; decide)
  have h19 : ¬ c = 'S' := fun h => hc (by rw [h]; decide)
  have h20 : ¬ c = 'T' := fun h => hc (by rw [h]; decide)
  have h21 : ¬ c = 'U' := fun h => hc (by rw [h]; decide)
  have h22 : ¬ c = 'V' := fun h => hc (by rw [h]; decide)
  have h23 : ¬ c = 'W' := fun h => hc (by rw [h]; decide)
  have h24 : ¬ c = 'X' := fun h => hc (by rw [h]; decide)
  have h25 : ¬ c = 'Y' := fun h => hc (by rw [h]; decide)
  have h26 : ¬ c = 'Z' := fun h => hc (by rw [h]; decide)
  rw [toLowerChar, if_neg h1, if_neg h2, if_neg h3, if_neg h4, if_neg h5,
    if_neg h6, if_neg h7, if_neg h8, if_neg h9, if_neg h10, if_neg h11,
    if_neg h12, if_neg h13, if_neg h14, if_neg h15, if_neg h16, if_neg h17,
    if_neg h18, if_neg h19, if_neg h20, if_neg h21, if_neg h22, if_neg h23,
    if_neg h24, if_neg h25, if_neg h26]

theorem toLowerChar_mem_or_eq (c : Char) :
    toLowerChar c ∈ LOWER_LETTERS ∨ toLowerChar c = c := by
  by_cases hc : c ∈ UPPER_LETTERS
  · left
    simp only [UPPER_LETTERS, List.mem_cons, List.not_mem_nil, or_false] at hc
    rcases hc with rfl | rfl | rfl | rfl | rfl | rfl | rfl | rfl | rfl | rfl |
      rfl | rfl | rfl | rfl | rfl | rfl | rfl | rfl | rfl | rfl | rfl | rfl |
      rfl | rfl | rfl | rfl <;> decide
  · right; exact toLowerChar_eq_of_not_upper hc

theorem toLowerChar_not_word {c : Char} (h : isWordChar c = false) :
    toLowerChar c = c := by
  apply toLowerChar_eq_of_not_upper
  intro hm
  have hw : isWordChar c = true := by
    have hall : ∀ d ∈ UPPER_LETTERS, isWordChar d = true := by decide
    exact hall c hm
  rw [hw] at h
  exact Bool.noConfusion h

theorem ciPrefix_false_of_nonword {d : Char} {ds : JStr} {c : Char} {cs : JStr}
    (hd : isWordChar d = true) (hc : isWordChar c = false) :
    ciPrefix (d :: ds) (c :: cs) = false := by
  have hne : ¬ toLowerChar c = d := by
    rw [toLowerChar_not_word hc]
    intro heq
    rw [heq, hd] at hc
    exact Bool.noConfusion hc
  simp [ciPrefix, hne]

theorem rpGo_nonword (d : Char) (ds : JStr) (hd : isWordChar d = true) :
    ∀ (s : JStr) (prevW : Bool), (∀ c ∈ s, isWordChar c = false) →
      rpGo (d :: ds) 0 prevW s = (s, 0) := by
  intro s
  induction s with
  | nil => intro prevW _; rfl
  | cons c rest ih =>
    intro prevW h
    have hc : isWordChar c = false := h c (List.mem_cons_self _ _)
    have hci : ciPrefix (d :: ds) (c :: rest) = false :=
      ciPrefix_false_of_nonword hd hc
    rw [rpGo]
    rw [if_neg (by simp [hci])]
    rw [ih (isWordChar c) (fun x hx => h x (List.mem_cons_of_mem _ hx))]

theorem replaceDescriptor_nonword (p : JStr) (hp : p ≠ [])
    (hphead : isWordChar (p.headD ' ') = true) (s : JStr)
    (h : ∀ c ∈ s, isWordChar c = false) : replaceDescriptor p s = (s, 0) := by
  rcases p with _ | ⟨d, ds⟩
  · exact absurd rfl hp
  · exact rpGo_nonword d ds hphead s false h

theorem foldDescr_nonword (L : List JStr)
    (hL : ∀ d ∈ L, d ≠ [] ∧ isWordChar (d.headD ' ') = true) (s : JStr)
    (h : ∀ c ∈ s, isWordChar c = false) : ∀ ds0 : List JStr,
    L.foldl (fun wd d =>
      let r := replaceDescriptor d wd.1
      (r.1, wd.2 ++ List.replicate r.2 d)) (s, ds0) = (s, ds0) := by
  induction L with
  | nil => intro ds0; rfl
  | cons d rest ih =>
    intro ds0
    have hd1 := hL d (List.mem_cons_self _ _)
    have hr : replaceDescriptor d s = (s, 0) :=
      replaceDescriptor_nonword d hd1.1 hd1.2 s h
    rw [List.foldl_cons]
    simp only [hr, List.replicate, List.append_nil]
    exact ih (fun x hx => hL x (List.mem_cons_of_mem _ hx)) ds0

theorem removeDescriptorPhrases_nonword (s : JStr) (ds0 : List JStr)
    (h : ∀ c ∈ s, isWordChar c = false) :
    removeDescriptorPhrases (s, ds0) = (s, ds0) := by
  rw [removeDescriptorPhrases]
  exact foldDescr_nonword DESCRIPTORS (by decide) s h ds0

theorem spGo_no_lparen (s : JStr) (h : ∀ c ∈ s, ¬ c = '(') :
    spGo 0 s = (s, []) := by
  induction s with
  | nil => rfl
  | cons c rest ih =>
    rw [spGo, if_neg (h c (List.mem_cons_self _ _))]
    rw [ih (fun x hx => h x (List.mem_cons_of_mem _ hx))]

theorem trimWs_all_space (s : JStr) (h : ∀ c ∈ s, isSpaceChar c = true) :
    trimWs s = [] := by
  have hdrop : s.dropWhile (fun c => isSpaceChar c) = [] := by
    rw [List.dropWhile_eq_nil_iff]
    exact h
  rw [trimWs, hdrop]
  rfl

theorem collapseWsGo_all_space (s : JStr) (h : ∀ c ∈ s, isSpaceChar c = true) :
    ∀ b, ∀ c ∈ collapseWsGo b s, isSpaceChar c = true := by
  induction s with
  | nil => intro b c hc; exact absurd hc (List.not_mem_nil c)
  | cons x rest ih =>
    intro b c hc
    have hx : isSpaceChar x = true := h x (List.mem_cons_self _ _)
    have hrest : ∀ c ∈ rest, isSpaceChar c = true :=
      fun y hy => h y (List.mem_cons_of_mem _ hy)
    rw [collapseWsGo, if_pos hx] at hc
    by_cases hb : b
    · subst hb
      rw [if_pos rfl] at hc
      exact ih hrest true c hc
    · have hb' : b = false := by
        cases b
        · rfl
        · exact absurd rfl hb
      subst hb'
      simp only [Bool.false_eq_true, if_false] at hc
      rcases List.mem_cons.mp hc with rfl | hc
      · decide
      · exact ih hrest true c hc

theorem normalizeWhitespace_all_space (s : JStr)
    (h : ∀ c ∈ s, isSpaceChar c = true) : normalizeWhitespace s = [] :=
  trimWs_all_space _ (collapseWsGo_all_space s h false)

theorem sanitizeWorkingValue_all_space (s : JStr)
    (h : ∀ c ∈ s, isSpaceChar c = true) : sanitizeWorkingValue s = [] := by
  rw [sanitizeWorkingValue]
  have hmap : s.map (fun c => if isSanitizedKeep c then c else ' ') = s := by
    have hcg : s.map (fun c => if isSanitizedKeep c then c else ' ') = s.map id :=
      List.map_congr_left (fun c hc => by simp [isSpaceChar_keep (h c hc)])
    rw [hcg, List.map_id]
  rw [hmap]
  exact normalizeWhitespace_all_space s h

theorem normalizeIngredientName_all_space (s : JStr)
    (h : ∀ c ∈ s, isSpaceChar c = true) :
    normalizeIngredientName s = ⟨[], [], []⟩ := by
  have h1 : removeParentheticalDescriptors s = (s, []) :=
    spGo_no_lparen s (fun c hc => isSpaceChar_ne_lparen (h c hc))
  have h2 : removeDescriptorPhrases (s, []) = (s, []) :=
    removeDescriptorPhrases_nonword s [] (fun c hc => isSpaceChar_not_word (h c hc))
  have h3 : sanitizeWorkingValue s = [] := sanitizeWorkingValue_all_space s h
  have h4 : normalizeWhitespace s = [] := normalizeWhitespace_all_space s h
  rw [normalizeIngredientName]
  simp only [h1, h2, h3, buildTokens, List.intercalate]
  simp [h4]

theorem normalizeForComparison_all_space (s : JStr)
    (h : ∀ c ∈ s, isSpaceChar c = true) : normalizeForComparison s = [] := by
  rw [normalizeForComparison, normalizeIngredientName_all_space s h]
  rfl

/-- **C8.** Ranking never fails on degenerate input: an empty catalog yields
an empty ranked list; an ingredient whose normalized name is empty yields an
empty ranked list (every `scoreCandidate` call returns `none`); and any
empty or whitespace-only ingredient name normalizes to the empty name. -/
theorem C8_degenerate_inputs (ingredient : ParsedIngredient)
    (foods : List FoodLookupItem) (sim : FoodLookupItem → Option ℚ) :
    rankFoodCandidates ingredient [] sim = [] ∧
    (normalizeForComparison ingredient.name = [] →
      rankFoodCandidates ingredient foods sim = []) ∧
    ((∀ ch ∈ ingredient.name, isSpaceChar ch = true) →
      normalizeForComparison ingredient.name = [] ∧
      rankFoodCandidates ingredient foods sim = []) := by
  have hempty : ∀ (hn : normalizeForComparison ingredient.name = []),
      rankFoodCandidates ingredient foods sim = [] := by
    intro hn
    rw [rankFoodCandidates]
    split
    · rfl
    · have hnone : ∀ f ∈ foods,
          scoreCandidate ingredient (buildIndexEntry f) (sim f) = none := by
        intro f _
        rw [scoreCandidate, if_pos hn]
      rw [List.filterMap_eq_nil_iff.mpr hnone]
      rfl
  refine ⟨rfl, hempty, ?_⟩
  intro hsp
  have hn := normalizeForComparison_all_space ingredient.name hsp
  exact ⟨hn, hempty hn⟩

/-- **C8 witness**: the theorem applied to a whitespace-only ingredient name
and a non-trivial catalog. -/
theorem C8_degenerate_inputs_witness :
    rankFoodCandidates ⟨"  ".toList, none, none, "  ".toList, none, none⟩ []
      (fun _ => none) = [] ∧
    (normalizeForComparison ("  ".toList : JStr) = [] →
      rankFoodCandidates ⟨"  ".toList, none, none, "  ".toList, none, none⟩
        [⟨"c".toList, "Celery".toList, none, none⟩] (fun _ => none) = []) ∧
    ((∀ ch ∈ ("  ".toList : JStr), isSpaceChar ch = true) →
      normalizeForComparison ("  ".toList : JStr) = [] ∧
      rankFoodCandidates ⟨"  ".toList, none, none, "  ".toList, none, none⟩
        [⟨"c".toList, "Celery".toList, none, none⟩] (fun _ => none) = []) :=
  C8_degenerate_inputs ⟨"  ".toList, none, none, "  ".toList, none, none⟩
    [⟨"c".toList, "Celery".toList, none, none⟩] (fun _ => none)

/-! ## C9: idempotence of `normalizeIngredientName` -/

theorem mem_of_mem_dropLast {l : JStr} {a : Char} (h : a ∈ l.dropLast) :
    a ∈ l :=
  (List.dropLast_sublist l).subset h

theorem lower_letters_facts :
    ∀ d ∈ LOWER_LETTERS, toLowerChar d = d ∧ isSanitizedKeep d = true ∧
      isSpaceChar d = false := by decide

theorem toLowerChar_idem (c : Char) :
    toLowerChar (toLowerChar c) = toLowerChar c := by
  rcases toLowerChar_mem_or_eq c with h | h
  · exact (lower_letters_facts _ h).1
  · rw [h]; exact h

theorem toLowerChar_kept {c : Char} (h : isSanitizedKeep c = true) :
    isSanitizedKeep (toLowerChar c) = true := by
  rcases toLowerChar_mem_or_eq c with hm | he
  · exact (lower_letters_facts _ hm).2.1
  · rw [he]; exact h

theorem toLowerChar_nonspace {c : Char} (h : isSpaceChar c = false) :
    isSpaceChar (toLowerChar c) = false := by
  rcases toLowerChar_mem_or_eq c with hm | he
  · exact (lower_letters_facts _ hm).2.2
  · rw [he]; exact h

theorem toLowerStr_eq_self : ∀ (s : JStr), (∀ c ∈ s, toLowerChar c = c) →
    toLowerStr s = s
  | [], _ => rfl
  | c :: cs, h => by
    have hc := h c (List.mem_cons_self _ _)
    have ih := toLowerStr_eq_self cs (fun d hd => h d (List.mem_cons_of_mem _ hd))
    simp only [toLowerStr, List.map_cons] at ih ⊢
    rw [hc, ih]

theorem toLowerStr_idem (s : JStr) : toLowerStr (toLowerStr s) = toLowerStr s := by
  apply toLowerStr_eq_self
  intro c hc
  simp only [toLowerStr] at hc
  rcases List.mem_map.mp hc with ⟨d, _, rfl⟩
  exact toLowerChar_idem d

theorem toLowerStr_dropLast (s : JStr) :
    toLowerStr s.dropLast = (toLowerStr s).dropLast := by
  simp only [toLowerStr, List.dropLast_eq_take, List.map_take, List.length_map]

theorem toLowerStr_append (a b : JStr) :
    toLowerStr (a ++ b) = toLowerStr a ++ toLowerStr b := by
  simp only [toLowerStr, List.map_append]

theorem getLast?_of_suffix {s t : JStr} (h : s <:+ t) (hne : s ≠ []) :
    t.getLast? = s.getLast? := by
  obtain ⟨u, rfl⟩ := h
  exact List.getLast?_append_of_ne_nil u hne

theorem isSuffixOf_false_of_last_ne {pat t : JStr} {x y : Char}
    (hp : pat.getLast? = some x) (ht : t.getLast? = some y) (hne : y ≠ x) :
    pat.isSuffixOf t = false := by
  by_contra hb
  rw [Bool.not_eq_false, List.isSuffixOf_iff_suffix] at hb
  have hpne : pat ≠ [] := by
    intro h; rw [h] at hp; exact Option.noConfusion hp
  have hlast := getLast?_of_suffix hb hpne
  rw [ht, hp] at hlast
  exact hne (Option.some.inj hlast)

theorem singularizeToken_fixed_of_short {r : JStr} (hlow : toLowerStr r = r)
    (hlen : r.length ≤ 3) : singularizeToken r = r := by
  simp only [singularizeToken, hlow]
  rw [if_pos hlen]

theorem singularizeToken_fixed_of_last {r : JStr} {a : Char}
    (hlow : toLowerStr r = r) (hlast : r.getLast? = some a) (ha : a ≠ 's') :
    singularizeToken r = r := by
  have hies : ("ies".toList).isSuffixOf r = false :=
    isSuffixOf_false_of_last_ne rfl hlast ha
  have hves : ("ves".toList).isSuffixOf r = false :=
    isSuffixOf_false_of_last_ne rfl hlast ha
  have hes : ("es".toList).isSuffixOf r = false :=
    isSuffixOf_false_of_last_ne rfl hlast ha
  have hs1 : ("s".toList).isSuffixOf r = false :=
    isSuffixOf_false_of_last_ne rfl hlast ha
  by_cases hlen : r.length ≤ 3
  · exact singularizeToken_fixed_of_short hlow hlen
  · have h2 : ¬ ((("ies".toList).isSuffixOf r) = true) := by
      rw [hies]; exact Bool.false_ne_true
    have h3 : ¬ ((("ves".toList).isSuffixOf r) = true) := by
      rw [hves]; exact Bool.false_ne_true
    have h4 : ¬ ((("es".toList).isSuffixOf r &&
        !(("ses".toList).isSuffixOf r) && !(("xes".toList).isSuffixOf r)) = true) := by
      rw [hes, Bool.false_and, Bool.false_and]; exact Bool.false_ne_true
    have h5 : ¬ ((("s".toList).isSuffixOf r &&
        !(("ss".toList).isSuffixOf r)) = true) := by
      rw [hs1, Bool.false_and]; exact Bool.false_ne_true
    simp only [singularizeToken, hlow]
    rw [if_neg hlen, if_neg h2, if_neg h3, if_neg h4, if_neg h5]

theorem str_es_eq : ("es".toList : JStr) = ['e'] ++ ['s'] := rfl

theorem str_s_eq : ("s".toList : JStr) = ['s'] := rfl

theorem singularizeToken_idem (p : JStr) :
    singularizeToken (singularizeToken p) = singularizeToken p := by
  have hL : toLowerStr (toLowerStr p) = toLowerStr p := toLowerStr_idem p
  by_cases h1 : (toLowerStr p).length ≤ 3
  · have hs : singularizeToken p = toLowerStr p := by
      simp only [singularizeToken]
      rw [if_pos h1]
    rw [hs]
    exact singularizeToken_fixed_of_short hL h1
  · by_cases h2 : (("ies".toList).isSuffixOf (toLowerStr p)) = true
    · have hs : singularizeToken p =
          (toLowerStr p).dropLast.dropLast.dropLast ++ ['y'] := by
        simp only [singularizeToken]
        rw [if_neg h1, if_pos h2]
      rw [hs]
      refine singularizeToken_fixed_of_last (a := 'y') ?_
        (List.getLast?_concat _) (by decide)
      rw [toLowerStr_append, toLowerStr_dropLast, toLowerStr_dropLast,
        toLowerStr_dropLast, hL,
        show toLowerStr ['y'] = ['y'] from by decide]
    · by_cases h3 : (("ves".toList).isSuffixOf (toLowerStr p)) = true
      · have hs : singularizeToken p =
            (toLowerStr p).dropLast.dropLast.dropLast ++ ['f'] := by
          simp only [singularizeToken]
          rw [if_neg h1, if_neg h2, if_pos h3]
        rw [hs]
        refine singularizeToken_fixed_of_last (a := 'f') ?_
          (List.getLast?_concat _) (by decide)
        rw [toLowerStr_append, toLowerStr_dropLast, toLowerStr_dropLast,
          toLowerStr_dropLast, hL,
          show toLowerStr ['f'] = ['f'] from by decide]
      · by_cases h4 : ((("es".toList).isSuffixOf (toLowerStr p) &&
            !(("ses".toList).isSuffixOf (toLowerStr p)) &&
            !(("xes".toList).isSuffixOf (toLowerStr p))) = true)
        · have hs : singularizeToken p = (toLowerStr p).dropLast.dropLast := by
            simp only [singularizeToken]
            rw [if_neg h1, if_neg h2, if_neg h3, if_pos h4]
          have h4' := h4
          simp only [Bool.and_eq_true, Bool.not_eq_true',
            List.isSuffixOf_iff_suffix] at h4'
          obtain ⟨⟨hesA, hses⟩, _⟩ := h4'
          obtain ⟨u, hu⟩ := hesA
          have hlen4 : 4 ≤ (toLowerStr p).length := by omega
          have hulen : 2 ≤ u.length := by
            have hcong := congrArg List.length hu
            simp only [List.length_append] at hcong
            rw [show ("es".toList).length = 2 from rfl] at hcong
            omega
          rcases List.eq_nil_or_concat u with rfl | ⟨u', a, rfl⟩
          · simp at hulen
          · rw [List.concat_eq_append] at hu
            have ha : a ≠ 's' := by
              rintro rfl
              have hform : (u' ++ ['s']) ++ "es".toList = u' ++ "ses".toList := by
                rw [str_es_eq,
                  show ("ses".toList : JStr) = ['s'] ++ (['e'] ++ ['s']) from rfl,
                  List.append_assoc]
              have hsx : ("ses".toList) <:+ toLowerStr p := by
                rw [← hu, hform]
                exact List.suffix_append u' _
              rw [← List.isSuffixOf_iff_suffix] at hsx
              rw [hsx] at hses
              exact Bool.noConfusion hses
            have hr : (toLowerStr p).dropLast.dropLast = u' ++ [a] := by
              rw [← hu, str_es_eq, ← List.append_assoc,
                List.dropLast_concat, List.dropLast_concat]
            rw [hs, hr]
            refine singularizeToken_fixed_of_last (a := a) ?_
              (List.getLast?_concat _) ha
            rw [← hr, toLowerStr_dropLast, toLowerStr_dropLast, hL]
        · by_cases h5 : ((("s".toList).isSuffixOf (toLowerStr p) &&
              !(("ss".toList).isSuffixOf (toLowerStr p))) = true)
          · have hs : singularizeToken p = (toLowerStr p).dropLast := by
              simp only [singularizeToken]
              rw [if_neg h1, if_neg h2, if_neg h3, if_neg h4, if_pos h5]
            have h5' := h5
            simp only [Bool.and_eq_true, Bool.not_eq_true',
              List.isSuffixOf_iff_suffix] at h5'
            obtain ⟨hsA, hss⟩ := h5'
            obtain ⟨u, hu⟩ := hsA
            have hlen4 : 4 ≤ (toLowerStr p).length := by omega
            have hulen : 1 ≤ u.length := by
              have hcong := congrArg List.length hu
              simp only [List.length_append] at hcong
              rw [show ("s".toList).length = 1 from rfl] at hcong
              omega
            rcases List.eq_nil_or_concat u with rfl | ⟨u', a, rfl⟩
            · simp at hulen
            · rw [List.concat_eq_append] at hu
              have ha : a ≠ 's' := by
                rintro rfl
                have hform : (u' ++ ['s']) ++ "s".toList = u' ++ "ss".toList := by
                  rw [str_s_eq,
                    show ("ss".toList : JStr) = ['s'] ++ ['s'] from rfl,
                    List.append_assoc]
                have hsx : ("ss".toList) <:+ toLowerStr p := by
                  rw [← hu, hform]
                  exact List.suffix_append u' _
                rw [← List.isSuffixOf_iff_suffix] at hsx
                rw [hsx] at hss
                exact Bool.noConfusion hss
              have hr : (toLowerStr p).dropLast = u' ++ [a] := by
                rw [← hu, str_s_eq, List.dropLast_concat]
              rw [hs, hr]
              refine singularizeToken_fixed_of_last (a := a) ?_
                (List.getLast?_concat _) ha
              rw [← hr, toLowerStr_dropLast, hL]
          · have hs : singularizeToken p = toLowerStr p := by
              simp only [singularizeToken]
              rw [if_neg h1, if_neg h2, if_neg h3, if_neg h4, if_neg h5]
            rw [hs]
            simp only [singularizeToken, hL]
            rw [if_neg h1, if_neg h2, if_neg h3, if_neg h4, if_neg h5]

theorem intercalate_one (t : JStr) : List.intercalate [' '] [t] = t := by
  simp [List.intercalate, List.intersperse_singleton]

theorem intercalate_two (t t2 : JStr) (ts : List JStr) :
    List.intercalate [' '] (t :: t2 :: ts) =
      t ++ (' ' :: List.intercalate [' '] (t2 :: ts)) := by
  simp [List.intercalate, List.intersperse_cons_cons]

theorem intercalate_ne_nil (ts : List JStr) (hne : ts ≠ [])
    (h : ∀ t ∈ ts, t ≠ []) : List.intercalate [' '] ts ≠ [] := by
  cases ts with
  | nil => exact absurd rfl hne
  | cons t ts' =>
    have htne := h t (List.mem_cons_self _ _)
    cases htk : t with
    | nil => exact absurd htk htne
    | cons d t'' =>
      cases ts' with
      | nil =>
        rw [intercalate_one]
        exact List.cons_ne_nil _ _
      | cons t2 ts'' =>
        rw [intercalate_two, List.cons_append]
        exact List.cons_ne_nil _ _

theorem intercalate_chars (ts : List JStr) :
    ∀ c ∈ List.intercalate [' '] ts, (∃ t ∈ ts, c ∈ t) ∨ c = ' ' := by
  induction ts with
  | nil =>
    intro c hc
    exact absurd hc (List.not_mem_nil c)
  | cons t ts' ih =>
    intro c hc
    cases ts' with
    | nil =>
      rw [intercalate_one] at hc
      exact Or.inl ⟨t, List.mem_cons_self _ _, hc⟩
    | cons t2 ts'' =>
      rw [intercalate_two] at hc
      rcases List.mem_append.mp hc with h | h
      · exact Or.inl ⟨t, List.mem_cons_self _ _, h⟩
      · rcases List.mem_cons.mp h with rfl | h'
        · exact Or.inr rfl
        · rcases ih c h' with ⟨u, hu, hcu⟩ | hsp
          · exact Or.inl ⟨u, List.mem_cons_of_mem _ hu, hcu⟩
          · exact Or.inr hsp

theorem collapseWsGo_append_nonspace :
    ∀ (t : JStr), t ≠ [] → (∀ c ∈ t, isSpaceChar c = false) →
      ∀ (b : Bool) (s : JStr), collapseWsGo b (t ++ s) = t ++ collapseWsGo false s := by
  intro t
  induction t with
  | nil => intro h; exact absurd rfl h
  | cons c t' ih =>
    intro _ h b s
    have hc : isSpaceChar c = false := h c (List.mem_cons_self _ _)
    simp only [List.cons_append, collapseWsGo, hc, Bool.false_eq_true, if_false,
      List.append_eq]
    by_cases ht' : t' = []
    · subst ht'
      simp
    · rw [ih ht' (fun d hd => h d (List.mem_cons_of_mem _ hd)) false s]

theorem collapseWsGo_intercalate :
    ∀ (ts : List JStr), (∀ t ∈ ts, t ≠ [] ∧ ∀ c ∈ t, isSpaceChar c = false) →
      ∀ b, collapseWsGo b (List.intercalate [' '] ts) = List.intercalate [' '] ts := by
  intro ts
  induction ts with
  | nil => intro _ b; rfl
  | cons t ts' ih =>
    intro h b
    have hne := (h t (List.mem_cons_self _ _)).1
    have hns := (h t (List.mem_cons_self _ _)).2
    cases ts' with
    | nil =>
      rw [intercalate_one]
      conv_lhs => rw [← List.append_nil t]
      rw [collapseWsGo_append_nonspace t hne hns b []]
      simp [collapseWsGo]
    | cons t2 ts'' =>
      rw [intercalate_two]
      rw [collapseWsGo_append_nonspace t hne hns b _]
      congr 1
      simp only [collapseWsGo]
      rw [if_pos (by decide : isSpaceChar ' ' = true), if_neg Bool.false_ne_true]
      rw [ih (fun u hu => h u (List.mem_cons_of_mem _ hu)) true]

theorem dropWhile_eq_self_of_head (p : Char → Bool) :
    ∀ (s : JStr), (∀ c, s.head? = some c → p c = false) → s.dropWhile p = s
  | [], _ => rfl
  | c :: cs, h => by
    have hc : p c = false := h c rfl
    rw [List.dropWhile_cons, if_neg (by rw [hc]; exact Bool.false_ne_true)]

theorem head?_intercalate_nonspace (ts : List JStr)
    (h : ∀ t ∈ ts, t ≠ [] ∧ ∀ c ∈ t, isSpaceChar c = false) (hne : ts ≠ []) :
    ∀ c, (List.intercalate [' '] ts).head? = some c → isSpaceChar c = false := by
  intro c hc
  cases ts with
  | nil => exact absurd rfl hne
  | cons t ts' =>
    obtain ⟨htne, htns⟩ := h t (List.mem_cons_self _ _)
    cases htk : t with
    | nil => exact absurd htk htne
    | cons d t'' =>
      have hd : isSpaceChar d = false := by
        refine htns d ?_
        rw [htk]
        exact List.mem_cons_self _ _
      cases ts' with
      | nil =>
        rw [intercalate_one, htk, List.head?_cons] at hc
        rw [← Option.some.inj hc]
        exact hd
      | cons t2 ts'' =>
        rw [intercalate_two, htk, List.cons_append, List.head?_cons] at hc
        rw [← Option.some.inj hc]
        exact hd

theorem getLast?_intercalate_nonspace :
    ∀ (ts : List JStr), (∀ t ∈ ts, t ≠ [] ∧ ∀ c ∈ t, isSpaceChar c = false) →
      ts ≠ [] → ∀ c, (List.intercalate [' '] ts).getLast? = some c →
        isSpaceChar c = false := by
  intro ts
  induction ts with
  | nil => intro _ hne; exact absurd rfl hne
  | cons t ts' ih =>
    intro h _ c hc
    obtain ⟨htne, htns⟩ := h t (List.mem_cons_self _ _)
    cases ts' with
    | nil =>
      rw [intercalate_one] at hc
      rcases List.eq_nil_or_concat t with rfl | ⟨u, a, rfl⟩
      · exact absurd rfl htne
      · rw [List.concat_eq_append, List.getLast?_concat] at hc
        refine (Option.some.inj hc) ▸ htns a ?_
        rw [List.concat_eq_append]
        exact List.mem_append.mpr (Or.inr (List.mem_singleton.mpr rfl))
    | cons t2 ts'' =>
      rw [intercalate_two,
        List.getLast?_append_of_ne_nil t (List.cons_ne_nil _ _)] at hc
      have hLne : List.intercalate [' '] (t2 :: ts'') ≠ [] :=
        intercalate_ne_nil _ (List.cons_ne_nil _ _)
          (fun u hu => (h u (List.mem_cons_of_mem _ hu)).1)
      rw [show (' ' :: List.intercalate [' '] (t2 :: ts'')) =
            [' '] ++ List.intercalate [' '] (t2 :: ts'') from rfl,
        List.getLast?_append_of_ne_nil [' '] hLne] at hc
      exact ih (fun u hu => h u (List.mem_cons_of_mem _ hu))
        (List.cons_ne_nil _ _) c hc

theorem trimWs_intercalate (ts : List JStr)
    (h : ∀ t ∈ ts, t ≠ [] ∧ ∀ c ∈ t, isSpaceChar c = false) :
    trimWs (List.intercalate [' '] ts) = List.intercalate [' '] ts := by
  by_cases hne : ts = []
  · subst hne; rfl
  · rw [trimWs]
    rw [dropWhile_eq_self_of_head _ _
      (fun c hc => head?_intercalate_nonspace ts h hne c hc)]
    rw [dropWhile_eq_self_of_head _ _
      (fun c hc => getLast?_intercalate_nonspace ts h hne c
        (by rw [← List.head?_reverse]; exact hc))]
    rw [List.reverse_reverse]

theorem normalizeWhitespace_intercalate (ts : List JStr)
    (h : ∀ t ∈ ts, t ≠ [] ∧ ∀ c ∈ t, isSpaceChar c = false) :
    normalizeWhitespace (List.intercalate [' '] ts) = List.intercalate [' '] ts := by
  rw [normalizeWhitespace, collapseWsGo_intercalate ts h false,
    trimWs_intercalate ts h]

theorem list_map_eq_self {α : Type} (f : α → α) :
    ∀ (l : List α), (∀ x ∈ l, f x = x) → l.map f = l := by
  intro l
  induction l with
  | nil => intro _; rfl
  | cons x xs ih =>
    intro h
    rw [List.map_cons, h x (List.mem_cons_self _ _),
      ih (fun y hy => h y (List.mem_cons_of_mem _ hy))]

theorem splitGo_append_no_sep (sep : Char) :
    ∀ (t : JStr), (∀ c ∈ t, ¬ c = sep) → ∀ (cur s : JStr),
      splitChar.splitGo sep cur (t ++ s) =
        splitChar.splitGo sep (t.reverse ++ cur) s := by
  intro t
  induction t with
  | nil =>
    intro _ cur s
    rw [List.nil_append, List.reverse_nil, List.nil_append]
  | cons c t' ih =>
    intro h cur s
    have hc : ¬ c = sep := h c (List.mem_cons_self _ _)
    rw [List.cons_append]
    simp only [splitChar.splitGo]
    rw [if_neg hc]
    rw [ih (fun d hd => h d (List.mem_cons_of_mem _ hd)) (c :: cur) s]
    congr 1
    rw [List.reverse_cons, List.append_assoc, List.singleton_append]

theorem splitChar_intercalate :
    ∀ (ts : List JStr), ts ≠ [] → (∀ t ∈ ts, ∀ c ∈ t, ¬ c = ' ') →
      splitChar ' ' (List.intercalate [' '] ts) = ts := by
  intro ts
  induction ts with
  | nil => intro hne; exact absurd rfl hne
  | cons t ts' ih =>
    intro _ h
    cases ts' with
    | nil =>
      rw [intercalate_one, splitChar]
      have hgo := splitGo_append_no_sep ' ' t (h t (List.mem_cons_self _ _)) [] []
      rw [List.append_nil, List.append_nil] at hgo
      rw [hgo]
      simp only [splitChar.splitGo]
      rw [List.reverse_reverse]
    | cons t2 ts'' =>
      rw [intercalate_two, splitChar]
      rw [splitGo_append_no_sep ' ' t (h t (List.mem_cons_self _ _)) [] _]
      rw [List.append_nil]
      simp only [splitChar.splitGo]
      rw [if_pos trivial, List.reverse_reverse]
      congr 1
      rw [show splitChar.splitGo ' ' [] (List.intercalate [' '] (t2 :: ts'')) =
            splitChar ' ' (List.intercalate [' '] (t2 :: ts'')) from rfl]
      exact ih (List.cons_ne_nil _ _)
        (fun u hu c hc => h u (List.mem_cons_of_mem _ hu) c hc)

theorem splitGo_chars (sep : Char) (P : Char → Prop) :
    ∀ (s cur : JStr), (∀ c ∈ cur, P c) → (∀ c ∈ s, c ≠ sep → P c) →
      ∀ t ∈ splitChar.splitGo sep cur s, ∀ c ∈ t, P c := by
  intro s
  induction s with
  | nil =>
    intro cur hcur _ t ht c hc
    simp only [splitChar.splitGo] at ht
    rw [List.mem_singleton] at ht
    subst ht
    exact hcur c (List.mem_reverse.mp hc)
  | cons d rest ih =>
    intro cur hcur hs t ht c hc
    simp only [splitChar.splitGo] at ht
    split at ht
    · rcases List.mem_cons.mp ht with rfl | ht'
      · exact hcur c (List.mem_reverse.mp hc)
      · exact ih [] (fun e he => absurd he (List.not_mem_nil e))
          (fun e he hne => hs e (List.mem_cons_of_mem _ he) hne) t ht' c hc
    · rename_i hd
      refine ih (d :: cur) ?_
        (fun e he hne => hs e (List.mem_cons_of_mem _ he) hne) t ht c hc
      intro e he
      rcases List.mem_cons.mp he with rfl | he'
      · exact hs e (List.mem_cons_self _ _) hd
      · exact hcur e he'

theorem splitChar_chars (sep : Char) (s : JStr) (P : Char → Prop)
    (hs : ∀ c ∈ s, c ≠ sep → P c) :
    ∀ t ∈ splitChar sep s, ∀ c ∈ t, P c := by
  rw [splitChar]
  exact splitGo_chars sep P s [] (fun c hc => absurd hc (List.not_mem_nil c)) hs

theorem dedupFirst_subset (l : List JStr) :
    ∀ (seen : List JStr) (x : JStr), x ∈ dedupFirst.go seen l → x ∈ l := by
  induction l with
  | nil =>
    intro seen x h
    simp only [dedupFirst.go] at h
    exact absurd h (List.not_mem_nil x)
  | cons a as ih =>
    intro seen x h
    simp only [dedupFirst.go] at h
    split at h
    · exact List.mem_cons_of_mem _ (ih seen x h)
    · rcases List.mem_cons.mp h with rfl | h'
      · exact List.mem_cons_self _ _
      · exact List.mem_cons_of_mem _ (ih (a :: seen) x h')

theorem dedupFirst_not_mem_seen (l : List JStr) :
    ∀ (seen : List JStr) (x : JStr), x ∈ dedupFirst.go seen l → x ∉ seen := by
  induction l with
  | nil =>
    intro seen x h
    simp only [dedupFirst.go] at h
    exact absurd h (List.not_mem_nil x)
  | cons a as ih =>
    intro seen x h
    simp only [dedupFirst.go] at h
    split at h
    · exact ih seen x h
    · rename_i hnot
      rcases List.mem_cons.mp h with rfl | h'
      · exact hnot
      · intro hx
        exact (ih (a :: seen) x h') (List.mem_cons_of_mem _ hx)

theorem dedupFirst_go_nodup (l : List JStr) :
    ∀ seen, (dedupFirst.go seen l).Nodup := by
  induction l with
  | nil =>
    intro seen
    simp only [dedupFirst.go]
    exact List.nodup_nil
  | cons a as ih =>
    intro seen
    simp only [dedupFirst.go]
    split
    · exact ih seen
    · refine List.nodup_cons.mpr ⟨?_, ih (a :: seen)⟩
      intro hmem
      exact (dedupFirst_not_mem_seen as (a :: seen) a hmem)
        (List.mem_cons_self _ _)

theorem dedupFirst_nodup (l : List JStr) : (dedupFirst l).Nodup :=
  dedupFirst_go_nodup l []

theorem dedupFirst_go_eq_self :
    ∀ (l : List JStr), l.Nodup → ∀ seen, (∀ x ∈ l, x ∉ seen) →
      dedupFirst.go seen l = l := by
  intro l
  induction l with
  | nil => intro _ seen _; rfl
  | cons a as ih =>
    intro hnd seen hs
    simp only [dedupFirst.go]
    rw [if_neg (hs a (List.mem_cons_self _ _))]
    congr 1
    refine ih (List.nodup_cons.mp hnd).2 (a :: seen) ?_
    intro x hx hmem
    rcases List.mem_cons.mp hmem with rfl | hmem'
    · exact (List.nodup_cons.mp hnd).1 hx
    · exact hs x (List.mem_cons_of_mem _ hx) hmem'

theorem dedupFirst_eq_self {l : List JStr} (h : l.Nodup) : dedupFirst l = l :=
  dedupFirst_go_eq_self l h [] (fun x _ => List.not_mem_nil x)

theorem collapseWsGo_chars (s : JStr) :
    ∀ (b : Bool) (c : Char), c ∈ collapseWsGo b s →
      (c ∈ s ∧ isSpaceChar c = false) ∨ c = ' ' := by
  induction s with
  | nil =>
    intro b c h
    simp only [collapseWsGo] at h
    exact absurd h (List.not_mem_nil c)
  | cons d rest ih =>
    intro b c h
    simp only [collapseWsGo] at h
    split at h
    · split at h
      · rcases ih true c h with ⟨h1, h2⟩ | h1
        · exact Or.inl ⟨List.mem_cons_of_mem _ h1, h2⟩
        · exact Or.inr h1
      · rcases List.mem_cons.mp h with rfl | h'
        · exact Or.inr rfl
        · rcases ih true c h' with ⟨h1, h2⟩ | h1
          · exact Or.inl ⟨List.mem_cons_of_mem _ h1, h2⟩
          · exact Or.inr h1
    · rename_i hsp
      rcases List.mem_cons.mp h with rfl | h'
      · refine Or.inl ⟨List.mem_cons_self _ _, ?_⟩
        rw [Bool.not_eq_true] at hsp
        exact hsp
      · rcases ih false c h' with ⟨h1, h2⟩ | h1
        · exact Or.inl ⟨List.mem_cons_of_mem _ h1, h2⟩
        · exact Or.inr h1

theorem trimWs_subset (s : JStr) : ∀ c ∈ trimWs s, c ∈ s := by
  intro c hc
  rw [trimWs, List.mem_reverse] at hc
  have h1 := (List.dropWhile_sublist _).subset hc
  rw [List.mem_reverse] at h1
  exact (List.dropWhile_sublist _).subset h1

theorem sanitizeWorkingValue_chars (w : JStr) :
    ∀ c ∈ sanitizeWorkingValue w,
      isSanitizedKeep c = true ∧ (isSpaceChar c = true → c = ' ') := by
  intro c hc
  rw [sanitizeWorkingValue, normalizeWhitespace] at hc
  have h1 := trimWs_subset _ c hc
  rcases collapseWsGo_chars _ false c h1 with ⟨h2, h3⟩ | h4
  · rcases List.mem_map.mp h2 with ⟨d, _, hde⟩
    constructor
    · by_cases hk : isSanitizedKeep d = true
      · rw [← hde, if_pos hk]; exact hk
      · rw [← hde, if_neg hk]; decide
    · intro hsp
      rw [h3] at hsp
      exact Bool.noConfusion hsp
  · subst h4
    exact ⟨by decide, fun _ => rfl⟩

theorem buildTokens_subset_map (v : JStr) :
    ∀ t ∈ buildTokens v, ∃ p ∈ splitChar ' ' v, singularizeToken p = t := by
  intro t ht
  rw [buildTokens] at ht
  by_cases hv : v = []
  · rw [if_pos hv] at ht
    exact absurd ht (List.not_mem_nil t)
  · rw [if_neg hv] at ht
    have h1 := dedupFirst_subset _ [] t ht
    have h2 := List.mem_filter.mp h1
    rcases List.mem_map.mp h2.1 with ⟨p, hp, hpe⟩
    exact ⟨p, hp, hpe⟩

theorem buildTokens_mem_ne_nil (v : JStr) :
    ∀ t ∈ buildTokens v, t ≠ [] := by
  intro t ht
  rw [buildTokens] at ht
  by_cases hv : v = []
  · rw [if_pos hv] at ht
    exact absurd ht (List.not_mem_nil t)
  · rw [if_neg hv] at ht
    have h1 := dedupFirst_subset _ [] t ht
    have h2 := (List.mem_filter.mp h1).2
    intro hnil
    subst hnil
    simp at h2

theorem buildTokens_fixed (v : JStr) :
    ∀ t ∈ buildTokens v, singularizeToken t = t := by
  intro t ht
  rcases buildTokens_subset_map v t ht with ⟨p, _, rfl⟩
  exact singularizeToken_idem p

theorem buildTokens_nodup (v : JStr) : (buildTokens v).Nodup := by
  rw [buildTokens]
  by_cases hv : v = []
  · rw [if_pos hv]
    exact List.nodup_nil
  · rw [if_neg hv]
    exact dedupFirst_nodup _

theorem singularizeToken_chars (p : JStr) :
    ∀ c ∈ singularizeToken p, c ∈ toLowerStr p ∨ c = 'y' ∨ c = 'f' := by
  intro c hc
  simp only [singularizeToken] at hc
  split at hc
  · exact Or.inl hc
  · split at hc
    · rcases List.mem_append.mp hc with h | h
      · exact Or.inl (mem_of_mem_dropLast (mem_of_mem_dropLast
          (mem_of_mem_dropLast h)))
      · right; left; exact List.mem_singleton.mp h
    · split at hc
      · rcases List.mem_append.mp hc with h | h
        · exact Or.inl (mem_of_mem_dropLast (mem_of_mem_dropLast
            (mem_of_mem_dropLast h)))
        · right; right; exact List.mem_singleton.mp h
      · split at hc
        · exact Or.inl (mem_of_mem_dropLast (mem_of_mem_dropLast hc))
        · split at hc
          · exact Or.inl (mem_of_mem_dropLast hc)
          · exact Or.inl hc

theorem buildTokens_chars (v : JStr)
    (hv : ∀ c ∈ v, isSanitizedKeep c = true ∧ (isSpaceChar c = true → c = ' ')) :
    ∀ t ∈ buildTokens v, ∀ c ∈ t,
      isSanitizedKeep c = true ∧ isSpaceChar c = false := by
  intro t ht c hc
  rcases buildTokens_subset_map v t ht with ⟨p, hp, rfl⟩
  have hpchars : ∀ d ∈ p, isSanitizedKeep d = true ∧ isSpaceChar d = false := by
    refine splitChar_chars ' ' v _ ?_ p hp
    intro d hd hne
    obtain ⟨hk, hsp⟩ := hv d hd
    refine ⟨hk, ?_⟩
    cases hspd : isSpaceChar d with
    | false => rfl
    | true => exact absurd (hsp hspd) hne
  rcases singularizeToken_chars p c hc with hm | rfl | rfl
  · simp only [toLowerStr] at hm
    rcases List.mem_map.mp hm with ⟨d, hd, rfl⟩
    obtain ⟨hk, hns⟩ := hpchars d hd
    exact ⟨toLowerChar_kept hk, toLowerChar_nonspace hns⟩
  · exact ⟨by decide, by decide⟩
  · exact ⟨by decide, by decide⟩

theorem ne_space_of_nonspace {c : Char} (h : isSpaceChar c = false) :
    ¬ c = ' ' := by
  rintro rfl
  exact absurd h (by decide)

theorem normalizeIngredientName_tokens_def (s : JStr) :
    (normalizeIngredientName s).tokens =
      buildTokens (sanitizeWorkingValue
        ((removeDescriptorPhrases (removeParentheticalDescriptors s)).1)) := by
  simp only [normalizeIngredientName]

theorem normalizeIngredientName_baseName_def (s : JStr) :
    (normalizeIngredientName s).baseName =
      (if List.intercalate [' ']
          (buildTokens (sanitizeWorkingValue
            ((removeDescriptorPhrases (removeParentheticalDescriptors s)).1))) = [] then
        normalizeWhitespace
          (if sanitizeWorkingValue
              ((removeDescriptorPhrases (removeParentheticalDescriptors s)).1) = []
            then s
            else sanitizeWorkingValue
              ((removeDescriptorPhrases (removeParentheticalDescriptors s)).1))
      else List.intercalate [' ']
          (buildTokens (sanitizeWorkingValue
            ((removeDescriptorPhrases (removeParentheticalDescriptors s)).1)))) := by
  simp only [normalizeIngredientName]

theorem renormalize_tokens (TK : List JStr)
    (hchars : ∀ t ∈ TK, ∀ c ∈ t, isSanitizedKeep c = true ∧ isSpaceChar c = false)
    (hne : ∀ t ∈ TK, t ≠ [])
    (hfix : ∀ t ∈ TK, singularizeToken t = t)
    (hnodup : TK.Nodup)
    (htne : TK ≠ [])
    (hd : (removeDescriptorPhrases (List.intercalate [' '] TK, [])).1 =
      List.intercalate [' '] TK) :
    (normalizeIngredientName (List.intercalate [' '] TK)).baseName =
      List.intercalate [' '] TK ∧
    (normalizeIngredientName (List.intercalate [' '] TK)).tokens = TK := by
  have hBne : List.intercalate [' '] TK ≠ [] := intercalate_ne_nil TK htne hne
  have hBkept : ∀ c ∈ List.intercalate [' '] TK, isSanitizedKeep c = true := by
    intro c hc
    rcases intercalate_chars TK c hc with ⟨t, htm, hct⟩ | rfl
    · exact (hchars t htm c hct).1
    · decide
  have hparen : removeParentheticalDescriptors (List.intercalate [' '] TK) =
      (List.intercalate [' '] TK, []) := by
    rw [removeParentheticalDescriptors]
    refine spGo_no_lparen _ ?_
    intro c hc hcp
    have hk := hBkept c hc
    rw [hcp] at hk
    exact absurd hk (by decide)
  have hsanB : sanitizeWorkingValue (List.intercalate [' '] TK) =
      List.intercalate [' '] TK := by
    rw [sanitizeWorkingValue]
    rw [list_map_eq_self _ _ (fun c hc => by rw [if_pos (hBkept c hc)])]
    exact normalizeWhitespace_intercalate TK
      (fun t htm => ⟨hne t htm, fun c hc => (hchars t htm c hc).2⟩)
  have hsplitB : splitChar ' ' (List.intercalate [' '] TK) = TK :=
    splitChar_intercalate TK htne
      (fun t htm c hc => ne_space_of_nonspace (hchars t htm c hc).2)
  have hbuildB : buildTokens (List.intercalate [' '] TK) = TK := by
    rw [buildTokens, if_neg hBne, hsplitB]
    rw [list_map_eq_self _ _ hfix]
    rw [List.filter_eq_self.mpr (fun a ha => by
      simpa [List.length_eq_zero] using hne a ha)]
    exact dedupFirst_eq_self hnodup
  constructor
  · rw [normalizeIngredientName_baseName_def, hparen, hd, hsanB, hbuildB,
      if_neg hBne]
  · rw [normalizeIngredientName_tokens_def, hparen, hd, hsanB, hbuildB]

/-- **C9 (amended).** Normalization is idempotent on the `baseName` whenever
the first pass produced a non-empty token list and the whole-word descriptor
scan leaves the produced `baseName` unchanged: renormalizing the `baseName`
then returns the same `baseName` and the same token list.  (Unconditional
idempotence, as claimed, is false: the singularizer can create a descriptor
word — see the counterexample.) -/
theorem C9_normalize_idempotent (s : JStr)
    (ht : (normalizeIngredientName s).tokens ≠ [])
    (hd : (removeDescriptorPhrases ((normalizeIngredientName s).baseName, [])).1 =
      (normalizeIngredientName s).baseName) :
    (normalizeIngredientName ((normalizeIngredientName s).baseName)).baseName =
      (normalizeIngredientName s).baseName ∧
    (normalizeIngredientName ((normalizeIngredientName s).baseName)).tokens =
      (normalizeIngredientName s).tokens := by
  have hchars : ∀ t ∈ (normalizeIngredientName s).tokens, ∀ c ∈ t,
      isSanitizedKeep c = true ∧ isSpaceChar c = false := by
    rw [normalizeIngredientName_tokens_def]
    exact buildTokens_chars _ (sanitizeWorkingValue_chars _)
  have hne : ∀ t ∈ (normalizeIngredientName s).tokens, t ≠ [] := by
    rw [normalizeIngredientName_tokens_def]
    exact buildTokens_mem_ne_nil _
  have hfix : ∀ t ∈ (normalizeIngredientName s).tokens,
      singularizeToken t = t := by
    rw [normalizeIngredientName_tokens_def]
    exact buildTokens_fixed _
  have hnodup : ((normalizeIngredientName s).tokens).Nodup := by
    rw [normalizeIngredientName_tokens_def]
    exact buildTokens_nodup _
  have hBne : List.intercalate [' '] ((normalizeIngredientName s).tokens) ≠ [] :=
    intercalate_ne_nil _ ht hne
  have hbase : (normalizeIngredientName s).baseName =
      List.intercalate [' '] ((normalizeIngredientName s).tokens) := by
    rw [normalizeIngredientName_baseName_def s,
      ← normalizeIngredientName_tokens_def s, if_neg hBne]
  rw [hbase] at hd
  have hmain := renormalize_tokens ((normalizeIngredientName s).tokens)
    hchars hne hfix hnodup ht hd
  constructor
  · rw [hbase]
    exact hmain.1
  · rw [hbase]
    exact hmain.2

/-- **C9 witness**: the theorem applied to the input `"carrots"` (first pass:
base name `"carrot"`, tokens `["carrot"]`). -/
theorem C9_normalize_idempotent_witness :
    (normalizeIngredientName
        ((normalizeIngredientName ("carrots".toList)).baseName)).baseName =
      (normalizeIngredientName ("carrots".toList)).baseName ∧
    (normalizeIngredientName
        ((normalizeIngredientName ("carrots".toList)).baseName)).tokens =
      (normalizeIngredientName ("carrots".toList)).tokens :=
  C9_normalize_idempotent ("carrots".toList) (by decide) (by decide)

/-- **C9 counterexample**: for the input `"choppeds"` the first pass
singularizes the only token to the descriptor word `"chopped"` (base name
`"chopped"`, tokens `["chopped"]`), but renormalizing that base name strips
`"chopped"` as a descriptor, so the second pass returns an empty token list:
normalization is not idempotent on the token list. -/
theorem C9_normalize_idempotent_counterexample :
    (normalizeIngredientName ("choppeds".toList)).baseName = "chopped".toList ∧
    (normalizeIngredientName ("choppeds".toList)).tokens = ["chopped".toList] ∧
    (normalizeIngredientName
        ((normalizeIngredientName ("choppeds".toList)).baseName)).tokens = [] ∧
    (normalizeIngredientName
        ((normalizeIngredientName ("choppeds".toList)).baseName)).tokens ≠
      (normalizeIngredientName ("choppeds".toList)).tokens :=
  ⟨by decide, by decide, by decide, by decide⟩
